import Mathlib

/-!
Verification of the Bencode codec (`bencode.py`).

The Python 2 module implements a `Bencode` class with an encoder
(`encode` / `_local_encode` / `_encode_string` / `_encode_integer` /
`_encode_list` / `_encode_dictionary`) and a recursive-descent decoder
(`decode` / `_local_decode` / `_parse_integer` / `_parse_list` /
`_parse_dictionary` / `_parse_byte_string` / `_get_number`) over a shared
byte buffer `_ben_string` and cursor `_pointer`.

Shallow embedding conventions:
* Python 2 `str` values are byte strings; they are modelled as `List Char`
  (one `Char` per byte).
* Python `dict` values are modelled as association lists with unique keys,
  in insertion order; `sorted(data.keys())` becomes an insertion sort by
  the byte-wise lexicographic order `keyLe`, and `be_dict[key] = val`
  becomes `dictInsert` (update in place if present, else append).
* Python exceptions become the error type `DErr`:
  `malformedInput` is the `Exception('Invalid character detected at
  position %d : %s')` raised by `_local_decode` (the spec's
  `MalformedInput`); `valueError` is the `ValueError` raised by `int()` in
  `_get_number` on a non-digit; `indexError` is the `IndexError` raised by
  an out-of-range subscript, which `decode` alone catches (printing a
  diagnostic and returning `None`, modelled as `.ok none`).  The code
  never raises anything corresponding to the spec's `TruncatedInput` or
  `NumericOverflow`, so `DErr` has no such constructors.
* The decoder's recursion is driven by a fuel argument; `decode` supplies
  `2 * s.length + 2`.  Each container opener costs two units (one `.val`
  dispatch plus one loop entry) and each further loop iteration one, and
  each unit is paid for by a consumed input byte, so `2 * (s.length - p)
  + 2` units always suffice from cursor `p`; `runDecode_fuel_irrelevant`
  proves that above this threshold the result does not depend on the
  fuel, so `decode` computes the fuel-free semantics of the source.  The
  `while` loops of `_parse_list` / `_parse_dictionary` are the
  `listLoop` / `dictLoop` modes of `runDecode`.
-/

/-- BencodeValue: the recursive value tree produced by the decoder and
consumed by the encoder (byte string, integer, list, dictionary). -/
inductive BVal where
  | str (s : List Char)
  | int (n : Int)
  | list (l : List BVal)
  | dict (d : List (List Char × BVal))

/-- Byte-string literal helper: the bytes of a Lean string literal. -/
def chars (s : String) : List Char := s.data

/-- Byte-wise lexicographic order on byte strings, as used by Python 2's
`sorted` on `str` values: compare byte by byte, a strict prefix sorts
first. -/
def keyLe : List Char → List Char → Bool
  | [], _ => true
  | _ :: _, [] => false
  | a :: as, b :: bs => if a < b then true else if b < a then false else keyLe as bs

/-- Ordering on key-tagged pairs used for `sorted(data.keys())`: compare
the keys with `keyLe`. -/
def keyRel {α : Type} (p q : List Char × α) : Prop := keyLe p.1 q.1 = true

instance {α : Type} : DecidableRel (keyRel (α := α)) := fun p q =>
  inferInstanceAs (Decidable (keyLe p.1 q.1 = true))

/-- Decimal digit characters, as produced by Python's `'%d'` formatting.
Only arguments below 10 occur. -/
def digitChar : Nat → Char
  | 0 => '0' | 1 => '1' | 2 => '2' | 3 => '3' | 4 => '4'
  | 5 => '5' | 6 => '6' | 7 => '7' | 8 => '8' | 9 => '9'
  | _ => '*'

/-- Fuel-driven decimal printer: most significant digit first, as Python's
`'%d'` renders a non-negative integer.  The fuel `n + 1` in `decimalRepr`
always suffices since the argument shrinks by a factor of 10 each step. -/
def decRepAux : Nat → Nat → List Char → List Char
  | 0, _, acc => acc
  | fuel + 1, n, acc =>
    if n < 10 then digitChar n :: acc
    else decRepAux fuel (n / 10) (digitChar (n % 10) :: acc)

/-- Decimal representation of a natural number (Python `'%d' % n`,
`n ≥ 0`). -/
def decimalRepr (n : Nat) : List Char := decRepAux (n + 1) n []

/-- Embeds `_encode_string`: `'%d:%s' % (len(data), data)`. -/
def _encode_string (s : List Char) : List Char :=
  decimalRepr s.length ++ ':' :: s

/-- Embeds `_encode_integer`: `'i%de' % data`.  Python's `%d` prints a
leading `-` exactly for negative arguments, then the decimal digits of
the absolute value. -/
def _encode_integer (n : Int) : List Char :=
  'i' :: (if n < 0 then '-' :: decimalRepr n.natAbs else decimalRepr n.natAbs) ++ ['e']

/-- Embeds `_local_encode` restricted to the four decodable variants
(str/int/list/dict):
* `_encode_list`: `'l'`, each member's encoding in order, `'e'`;
* `_encode_dictionary`: `'d'`, then for each key in `sorted(data.keys())`
  the key's string encoding followed by the encoding of `data[key]`,
  then `'e'`.  Since the association list has unique keys (it models a
  Python `dict`), iterating over the sorted keys and looking each value
  up is the same as sorting the (key, encoded value) pairs by key, which
  is how the recursion is arranged here. -/
def encodeV : BVal → List Char
  | .str s => _encode_string s
  | .int n => _encode_integer n
  | .list l => 'l' :: (l.attach.map fun x => encodeV x.1).flatten ++ ['e']
  | .dict d =>
    'd' :: ((List.insertionSort keyRel
        (d.attach.map fun x => (x.1.1, encodeV x.1.2))).map
          fun q => _encode_string q.1 ++ q.2).flatten ++ ['e']
decreasing_by
  · have h := List.sizeOf_lt_of_mem x.2
    simp at h ⊢
    omega
  · have h := List.sizeOf_lt_of_mem x.2
    rcases x with ⟨⟨k, v⟩, hx⟩
    simp at h ⊢
    omega

/-- Errors raised during decoding, with the cursor position at the point
of the raise:
* `malformedInput pos c`: `Exception('Invalid character detected at
  position %d : %s')` from `_local_decode` (the spec's `MalformedInput`);
* `valueError pos c`: the `ValueError` from `int(cur_char)` in
  `_get_number` when the byte is not a decimal digit;
* `indexError pos`: `IndexError` from subscripting past the end of the
  buffer.
No constructor corresponds to the spec's `TruncatedInput` or
`NumericOverflow`; the code raises no such errors. -/
inductive DErr where
  | malformedInput (pos : Nat) (c : Char)
  | valueError (pos : Nat) (c : Char)
  | indexError (pos : Nat)
deriving DecidableEq

/-- Cursor position at which an error was raised (`self._pointer` at the
moment of the raise). -/
def DErr.pos : DErr → Nat
  | .malformedInput p _ => p
  | .valueError p _ => p
  | .indexError p => p

/-- Embeds Python 2 `int(c)` on a one-byte string: a decimal digit
converts, anything else raises `ValueError` (modelled as `none`). -/
def pyInt (c : Char) : Option Nat :=
  if c.isDigit then some (c.toNat - 48) else none

/-- Embeds `_get_number(end_char)`: accumulate `num = num*10 + int(c)`
until `end_char` is read (and consumed).  The extra fuel argument only
bounds the loop; callers pass `s.length + 1`, which the loop can never
exhaust since each iteration needs an in-range read and advances the
cursor. -/
def _get_number (s : List Char) (endChar : Char) : Nat → Nat → Nat → Except DErr (Nat × Nat)
  | 0, _, p => .error (.indexError p)
  | fuel + 1, num, p =>
    match s[p]? with
    | none => .error (.indexError p)
    | some c =>
      if c = endChar then .ok (num, p + 1)
      else
        match pyInt c with
        | some d => _get_number s endChar fuel (num * 10 + d) (p + 1)
        | none => .error (.valueError p c)

/-- Embeds `_parse_byte_string`: read the length up to `':'`, then slice
`self._ben_string[p : p + str_len]` — Python slicing silently truncates
at the end of the buffer — and advance the cursor by `str_len`
regardless. -/
def _parse_byte_string (s : List Char) (p : Nat) : Except DErr (List Char × Nat) := do
  let (len, p') ← _get_number s ':' (s.length + 1) 0 p
  .ok ((s.drop p').take len, p' + len)

/-- Embeds `_parse_integer`: consume `'i'`, optionally consume `'-'`
recording the sign, then `_get_number('e') * mult`. -/
def _parse_integer (s : List Char) (p : Nat) : Except DErr (BVal × Nat) :=
  match s[p + 1]? with
  | none => .error (.indexError (p + 1))
  | some c =>
    if c = '-' then
      match _get_number s 'e' (s.length + 1) 0 (p + 2) with
      | .ok (num, p') => .ok (.int (-(num : Int)), p')
      | .error e => .error e
    else
      match _get_number s 'e' (s.length + 1) 0 (p + 1) with
      | .ok (num, p') => .ok (.int ((num : Int)), p')
      | .error e => .error e

/-- Embeds the Python dictionary assignment `be_dict[key] = val` on the
association-list model: update the existing binding in place if the key
is present, otherwise append the new pair. -/
def dictInsert (d : List (List Char × BVal)) (k : List Char) (v : BVal) :
    List (List Char × BVal) :=
  if d.any (fun q => q.1 == k) then d.map (fun q => if q.1 == k then (q.1, v) else q)
  else d ++ [(k, v)]

/-- Control state of the decoder: dispatching on a value
(`_local_decode`), inside the `while` loop of `_parse_list`, or inside
the `while` loop of `_parse_dictionary` (with the elements accumulated so
far). -/
inductive DTask where
  | val
  | listLoop (acc : List BVal)
  | dictLoop (acc : List (List Char × BVal))

/-- Embeds the mutually recursive decoder `_local_decode` /
`_parse_list` / `_parse_dictionary` as one fuel-indexed step function.
`.val` is `_local_decode`'s dispatch on the current byte (`'i'` integer,
`'l'` list, `'d'` dictionary, `'-'` or digit byte string, otherwise the
invalid-character exception).  `.listLoop` / `.dictLoop` are the loops of
`_parse_list` / `_parse_dictionary`: while the current byte is not `'e'`,
parse the next element (for dictionaries: a byte-string key directly via
`_parse_byte_string`, then a value), then consume the closing `'e'`.
The fuel only bounds the recursion; it never alters the result when it is
at least `needT s task p` (`runDecode_fuel_irrelevant`), which the fuel
passed by `decode` always is. -/
def runDecode (s : List Char) : Nat → DTask → Nat → Except DErr (BVal × Nat)
  | 0, _, p => .error (.indexError p)
  | fuel + 1, .val, p =>
    match s[p]? with
    | none => .error (.indexError p)
    | some c =>
      if c = 'i' then _parse_integer s p
      else if c = 'l' then runDecode s fuel (.listLoop []) (p + 1)
      else if c = 'd' then runDecode s fuel (.dictLoop []) (p + 1)
      else if c ∈ ['-', '0', '1', '2', '3', '4', '5', '6', '7', '8', '9'] then
        match _parse_byte_string s p with
        | .ok (str, p') => .ok (.str str, p')
        | .error e => .error e
      else .error (.malformedInput p c)
  | fuel + 1, .listLoop acc, p =>
    match s[p]? with
    | none => .error (.indexError p)
    | some c =>
      if c = 'e' then .ok (.list acc, p + 1)
      else do
        let (v, p') ← runDecode s fuel .val p
        runDecode s fuel (.listLoop (acc ++ [v])) p'
  | fuel + 1, .dictLoop acc, p =>
    match s[p]? with
    | none => .error (.indexError p)
    | some c =>
      if c = 'e' then .ok (.dict acc, p + 1)
      else do
        let (k, p₁) ← _parse_byte_string s p
        let (v, p₂) ← runDecode s fuel .val p₁
        runDecode s fuel (.dictLoop (dictInsert acc k v)) p₂

/-- Embeds `decode`: store the buffer, reset the cursor to 0, run
`_local_decode`, and catch `IndexError` only — Python prints a diagnostic
and falls through, returning `None` (here `.ok none`).  Every other
exception propagates to the caller.  A successful parse returns its value
even if bytes remain after it.  The fuel `2 * s.length + 2` exceeds
`needT s .val 0`, so by `runDecode_fuel_irrelevant` the result is the
fuel-independent behaviour of the source's unbounded recursion. -/
def decode (s : List Char) : Except DErr (Option BVal) :=
  match runDecode s (2 * s.length + 2) .val 0 with
  | .ok (v, _) => .ok (some v)
  | .error (.indexError _) => .ok none
  | .error e => .error e

/-- Instance state of the `Bencode` class: the stored buffer
`_ben_string` and cursor `_pointer` (class attributes reused across
calls). -/
structure Bencode where
  _ben_string : List Char := []
  _pointer : Nat := 0

/-- Embeds a call to `Bencode.encode` on an instance: the encoder touches
no instance state, so the state passes through unchanged. -/
def Bencode.encodeCall (b : Bencode) (v : BVal) : List Char × Bencode :=
  (encodeV v, b)

/-- Embeds a call to `Bencode.decode` on an instance: `decode` first
overwrites `_ben_string` with its argument and resets `_pointer` to 0,
then parses from the stored state.  The returned state records where the
cursor ended up (the final position on success, the position of the raise
on an exception). -/
def Bencode.decodeCall (b : Bencode) (s : List Char) : Except DErr (Option BVal) × Bencode :=
  let b₁ : Bencode := { b with _ben_string := s, _pointer := 0 }
  match runDecode b₁._ben_string (2 * b₁._ben_string.length + 2) .val b₁._pointer with
  | .ok (v, p') => (.ok (some v), { b₁ with _pointer := p' })
  | .error (.indexError p) => (.ok none, { b₁ with _pointer := p })
  | .error e => (.error e, { b₁ with _pointer := e.pos })

/-- One public call on a `Bencode` instance. -/
inductive BCall where
  | enc (v : BVal)
  | dec (s : List Char)

/-- State of a `Bencode` instance after performing one call. -/
def Bencode.afterCall (b : Bencode) : BCall → Bencode
  | .enc v => (b.encodeCall v).2
  | .dec s => (b.decodeCall s).2

/-- State of a `Bencode` instance after a sequence of calls. -/
def runCalls (b : Bencode) (ops : List BCall) : Bencode :=
  ops.foldl Bencode.afterCall b

/-- First-match association lookup (the mapping view of a decoded
dictionary). -/
def lookupKV : List (List Char × BVal) → List Char → Option BVal
  | [], _ => none
  | q :: t, k => if q.1 = k then some q.2 else lookupKV t k

/-- Dictionary built by the `_parse_dictionary` loop from the key/value
pairs in the order they are encountered. -/
def buildD (pairs : List (List Char × BVal)) : List (List Char × BVal) :=
  pairs.foldl (fun a q => dictInsert a q.1 q.2) []

/-- Keys of an association list are pairwise distinct (the invariant of a
real Python `dict`). -/
def KeysNodup (d : List (List Char × BVal)) : Prop := (d.map Prod.fst).Nodup

/-- Every dictionary nested in the value has pairwise-distinct keys,
i.e. the value corresponds to an actual Python value tree. -/
def nodupKeysV : BVal → Bool
  | .str _ => true
  | .int _ => true
  | .list l => (l.attach.map fun x => nodupKeysV x.1).all id
  | .dict d =>
    decide ((d.map Prod.fst).Nodup) && (d.attach.map fun x => nodupKeysV x.1.2).all id
decreasing_by
  · have h := List.sizeOf_lt_of_mem x.2
    simp at h ⊢
    omega
  · have h := List.sizeOf_lt_of_mem x.2
    rcases x with ⟨⟨k, v⟩, hx⟩
    simp at h ⊢
    omega

/-- Strictly ascending byte-wise order on a key list. -/
def keysStrictSorted : List (List Char) → Bool
  | [] => true
  | [_] => true
  | a :: b :: t => (keyLe a b && !(a == b)) && keysStrictSorted (b :: t)

/-- Canonical form: every nested dictionary lists its keys in strictly
ascending byte-wise order (which makes them unique). -/
def isCanonical : BVal → Bool
  | .str _ => true
  | .int _ => true
  | .list l => (l.attach.map fun x => isCanonical x.1).all id
  | .dict d =>
    keysStrictSorted (d.map Prod.fst) && (d.attach.map fun x => isCanonical x.1.2).all id
decreasing_by
  · have h := List.sizeOf_lt_of_mem x.2
    simp at h ⊢
    omega
  · have h := List.sizeOf_lt_of_mem x.2
    rcases x with ⟨⟨k, v⟩, hx⟩
    simp at h ⊢
    omega

/-- Canonicalization: recursively sort every dictionary's pairs by key.
For values with unique dictionary keys this is exactly what a decode of
the value's encoding rebuilds. -/
def canon : BVal → BVal
  | .str s => .str s
  | .int n => .int n
  | .list l => .list (l.attach.map fun x => canon x.1)
  | .dict d =>
    .dict (List.insertionSort keyRel (d.attach.map fun x => (x.1.1, canon x.1.2)))
decreasing_by
  · have h := List.sizeOf_lt_of_mem x.2
    simp at h ⊢
    omega
  · have h := List.sizeOf_lt_of_mem x.2
    rcases x with ⟨⟨k, v⟩, hx⟩
    simp at h ⊢
    omega

/-- Combining function for the fuel bound of a decoder loop. -/
def foldNeed (xs : List Nat) : Nat := xs.foldr (fun a acc => 1 + max a acc) 1

/-- Fuel bound for `runDecode` on the encoding of a value: 1 for the
dispatch plus, for containers, 1 per loop iteration nested with the
member's own bound.  Dictionary members are taken in the sorted order in
which the encoding lists them. -/
def needV : BVal → Nat
  | .str _ => 1
  | .int _ => 1
  | .list l => 1 + foldNeed (l.attach.map fun x => needV x.1)
  | .dict d =>
    1 + foldNeed ((List.insertionSort keyRel
      (d.attach.map fun x => (x.1.1, needV x.1.2))).map Prod.snd)
decreasing_by
  · have h := List.sizeOf_lt_of_mem x.2
    simp at h ⊢
    omega
  · have h := List.sizeOf_lt_of_mem x.2
    rcases x with ⟨⟨k, v⟩, hx⟩
    simp at h ⊢
    omega

/-- Strict version of `keyRel`: the keys compare `≤` and are distinct. -/
def keyRelS {α : Type} (p q : List Char × α) : Prop :=
  keyLe p.1 q.1 = true ∧ p.1 ≠ q.1

/-- Value of a digit sequence read most-significant-first, with a running
accumulator — the quantity `_get_number` computes. -/
def digitsVal (num : Nat) (l : List Char) : Nat :=
  l.foldl (fun a c => a * 10 + (c.toNat - 48)) num

/-- Strict byte-wise key order. -/
def KeyLt (a b : List Char) : Prop := keyLe a b = true ∧ a ≠ b

/-- Result of re-encoding a successful decode (`encode(decode(b))` when
`decode b` returns a value). -/
def encodeAfterDecode (r : Except DErr (Option BVal)) : Option (List Char) :=
  match r with
  | .ok (some v) => some (encodeV v)
  | _ => none

/-- Encoding of a dictionary body from raw key/value pairs in a given
order — not necessarily sorted, keys not necessarily unique — as a
non-canonical encoder would produce it. -/
def dictEnc (pairs : List (List Char × BVal)) : List Char :=
  'd' :: (pairs.map fun q => _encode_string q.1 ++ encodeV q.2).flatten ++ ['e']


/-- Fuel threshold below which `runDecode`'s fuel could matter: from
cursor `p` at most `s.length - p` loop iterations and as many dispatches
remain, each consuming at least one byte, plus one unit of slack for the
final read.  Above this threshold the fuel is irrelevant
(`runDecode_fuel_irrelevant`). -/
def needT (s : List Char) : DTask → Nat → Nat
  | .val, p => 2 * (s.length - p) + 1
  | .listLoop _, p => 2 * (s.length - p) + 2
  | .dictLoop _, p => 2 * (s.length - p) + 2

/-!  Equation lemmas for the nested-recursive definitions, with the
`attach` plumbing removed. -/

theorem encodeV_str (s : List Char) : encodeV (.str s) = _encode_string s := by
  simp [encodeV]

theorem encodeV_int (n : Int) : encodeV (.int n) = _encode_integer n := by
  simp [encodeV]

theorem encodeV_list (l : List BVal) :
    encodeV (.list l) = 'l' :: (l.map encodeV).flatten ++ ['e'] := by
  rw [encodeV, List.attach_map_val]

theorem encodeV_dict (d : List (List Char × BVal)) :
    encodeV (.dict d) =
      'd' :: ((List.insertionSort keyRel (d.map fun q => (q.1, encodeV q.2))).map
        fun q => _encode_string q.1 ++ q.2).flatten ++ ['e'] := by
  rw [encodeV, List.attach_map_val d (fun q => (q.1, encodeV q.2))]

theorem nodupKeysV_list (l : List BVal) :
    nodupKeysV (.list l) = (l.map nodupKeysV).all id := by
  rw [nodupKeysV, List.attach_map_val]

theorem nodupKeysV_dict (d : List (List Char × BVal)) :
    nodupKeysV (.dict d) =
      (decide ((d.map Prod.fst).Nodup) && (d.map fun q => nodupKeysV q.2).all id) := by
  rw [nodupKeysV, List.attach_map_val d (fun q => nodupKeysV q.2)]

theorem isCanonical_list (l : List BVal) :
    isCanonical (.list l) = (l.map isCanonical).all id := by
  rw [isCanonical, List.attach_map_val]

theorem isCanonical_dict (d : List (List Char × BVal)) :
    isCanonical (.dict d) =
      (keysStrictSorted (d.map Prod.fst) && (d.map fun q => isCanonical q.2).all id) := by
  rw [isCanonical, List.attach_map_val d (fun q => isCanonical q.2)]

theorem canon_list (l : List BVal) : canon (.list l) = .list (l.map canon) := by
  rw [canon, List.attach_map_val]

theorem canon_dict (d : List (List Char × BVal)) :
    canon (.dict d) =
      .dict (List.insertionSort keyRel (d.map fun q => (q.1, canon q.2))) := by
  rw [canon, List.attach_map_val d (fun q => (q.1, canon q.2))]

theorem needV_list (l : List BVal) :
    needV (.list l) = 1 + foldNeed (l.map needV) := by
  rw [needV, List.attach_map_val]

theorem needV_dict (d : List (List Char × BVal)) :
    needV (.dict d) =
      1 + foldNeed ((List.insertionSort keyRel
        (d.map fun q => (q.1, needV q.2))).map Prod.snd) := by
  rw [needV, List.attach_map_val d (fun q => (q.1, needV q.2))]

theorem needV_pos (v : BVal) : 1 ≤ needV v := by
  cases v <;> rw [needV] <;> omega

/-- Nested membership induction principle for `BVal`. -/
theorem BVal.memInduction {motive : BVal → Prop}
    (hstr : ∀ s, motive (.str s)) (hint : ∀ n, motive (.int n))
    (hlist : ∀ l, (∀ v ∈ l, motive v) → motive (.list l))
    (hdict : ∀ d, (∀ q ∈ d, motive q.2) → motive (.dict d)) :
    ∀ v, motive v
  | .str s => hstr s
  | .int n => hint n
  | .list l => hlist l (fun v hv =>
      BVal.memInduction hstr hint hlist hdict v)
  | .dict d => hdict d (fun q hq =>
      BVal.memInduction hstr hint hlist hdict q.2)
decreasing_by
  · have h := List.sizeOf_lt_of_mem hv
    simp at h ⊢
    omega
  · have h := List.sizeOf_lt_of_mem hq
    rcases q with ⟨k, v⟩
    simp at h ⊢
    omega

/-!  Order theory for the byte-wise lexicographic comparison `keyLe`. -/

theorem char_eq_of_toNat_eq {a b : Char} (h : a.toNat = b.toNat) : a = b := by
  apply Char.ext
  apply UInt32.ext
  exact h

theorem keyLe_cons {a b : Char} {as bs : List Char} :
    keyLe (a :: as) (b :: bs) = true ↔ a < b ∨ (a = b ∧ keyLe as bs = true) := by
  rcases lt_trichotomy a b with h | h | h
  · simp [keyLe, h]
  · simp [keyLe, h, lt_irrefl]
  · simp [keyLe, lt_asymm h, h]
    intro he
    exact absurd (he ▸ h) (lt_irrefl a)

theorem keyLe_refl (a : List Char) : keyLe a a = true := by
  induction a with
  | nil => rfl
  | cons c t ih => rw [keyLe_cons]; exact Or.inr ⟨rfl, ih⟩

theorem keyLe_total (a b : List Char) : keyLe a b = true ∨ keyLe b a = true := by
  induction a generalizing b with
  | nil => exact Or.inl rfl
  | cons c t ih =>
    cases b with
    | nil => exact Or.inr rfl
    | cons c' t' =>
      rcases lt_trichotomy c c' with h | h | h
      · exact Or.inl (keyLe_cons.mpr (Or.inl h))
      · subst h
        rcases ih t' with h' | h'
        · exact Or.inl (keyLe_cons.mpr (Or.inr ⟨rfl, h'⟩))
        · exact Or.inr (keyLe_cons.mpr (Or.inr ⟨rfl, h'⟩))
      · exact Or.inr (keyLe_cons.mpr (Or.inl h))

theorem keyLe_trans (a b c : List Char) (hab : keyLe a b = true)
    (hbc : keyLe b c = true) : keyLe a c = true := by
  induction a generalizing b c with
  | nil => rfl
  | cons x t ih =>
    cases b with
    | nil => exact absurd hab (by simp [keyLe])
    | cons y u =>
      cases c with
      | nil => exact absurd hbc (by simp [keyLe])
      | cons z v =>
        rcases keyLe_cons.mp hab with h1 | ⟨h1, h1'⟩ <;>
          rcases keyLe_cons.mp hbc with h2 | ⟨h2, h2'⟩
        · exact keyLe_cons.mpr (Or.inl (lt_trans h1 h2))
        · exact keyLe_cons.mpr (Or.inl (h2 ▸ h1))
        · exact keyLe_cons.mpr (Or.inl (h1 ▸ h2))
        · exact keyLe_cons.mpr (Or.inr ⟨h1.trans h2, ih u v h1' h2'⟩)

theorem keyLe_antisymm (a b : List Char) (hab : keyLe a b = true)
    (hba : keyLe b a = true) : a = b := by
  induction a generalizing b with
  | nil =>
    cases b with
    | nil => rfl
    | cons y u => exact absurd hba (by simp [keyLe])
  | cons x t ih =>
    cases b with
    | nil => exact absurd hab (by simp [keyLe])
    | cons y u =>
      rcases keyLe_cons.mp hab with h1 | ⟨h1, h1'⟩ <;>
        rcases keyLe_cons.mp hba with h2 | ⟨h2, h2'⟩
      · exact absurd h2 (lt_asymm h1)
      · exact absurd (h2 ▸ h1) (lt_irrefl y)
      · exact absurd (h1 ▸ h2) (lt_irrefl y)
      · rw [h1, ih u h1' h2']

instance keyRel_total {α : Type} : IsTotal (List Char × α) keyRel :=
  ⟨fun p q => keyLe_total p.1 q.1⟩

instance keyRel_trans {α : Type} : IsTrans (List Char × α) keyRel :=
  ⟨fun p q r h1 h2 => keyLe_trans p.1 q.1 r.1 h1 h2⟩

instance keyRelS_antisymm {α : Type} : IsAntisymm (List Char × α) keyRelS :=
  ⟨fun p q h1 h2 => absurd (keyLe_antisymm p.1 q.1 h1.1 h2.1) h1.2⟩

instance keyRelS_trans {α : Type} : IsTrans (List Char × α) keyRelS :=
  ⟨fun p q r h1 h2 =>
    ⟨keyLe_trans p.1 q.1 r.1 h1.1 h2.1, fun he =>
      h2.2 (keyLe_antisymm q.1 r.1 h2.1 (he ▸ h1.1))⟩⟩

/-!  Arithmetic facts about the decimal printer. -/

theorem digitChar_isDigit {k : Nat} (h : k < 10) : (digitChar k).isDigit = true := by
  interval_cases k <;> decide

theorem digitChar_toNat {k : Nat} (h : k < 10) : (digitChar k).toNat = 48 + k := by
  interval_cases k <;> decide

theorem pyInt_digit {c : Char} (h : c.isDigit = true) :
    pyInt c = some (c.toNat - 48) := by
  simp [pyInt, h]

theorem decRepAux_shift (fuel : Nat) : ∀ n acc, n < fuel →
    decRepAux fuel n acc = decimalRepr n ++ acc := by
  induction fuel using Nat.strong_induction_on with
  | _ fuel ih =>
    intro n acc hn
    match fuel, hn with
    | g + 1, hn =>
      by_cases h10 : n < 10
      · simp [decRepAux, decimalRepr, h10]
      · have hdiv : n / 10 < n := Nat.div_lt_self (by omega) (by omega)
        rw [decRepAux, if_neg h10]
        rw [ih g (by omega) (n / 10) _ (by omega)]
        rw [show decimalRepr n = decRepAux n (n / 10) [digitChar (n % 10)] by
          rw [decimalRepr, decRepAux, if_neg h10]]
        rw [ih n (by omega) (n / 10) _ (by omega)]
        simp

theorem decimalRepr_lt10 {n : Nat} (h : n < 10) : decimalRepr n = [digitChar n] := by
  simp [decimalRepr, decRepAux, h]

theorem decimalRepr_ge10 {n : Nat} (h : 10 ≤ n) :
    decimalRepr n = decimalRepr (n / 10) ++ [digitChar (n % 10)] := by
  rw [decimalRepr, decRepAux, if_neg (by omega)]
  exact decRepAux_shift n (n / 10) _ (Nat.div_lt_self (by omega) (by omega))

theorem decimalRepr_digits (n : Nat) : ∀ c ∈ decimalRepr n, c.isDigit = true := by
  induction n using Nat.strong_induction_on with
  | _ n ih =>
    intro c hc
    by_cases h10 : n < 10
    · rw [decimalRepr_lt10 h10] at hc
      simp at hc
      exact hc ▸ digitChar_isDigit h10
    · rw [decimalRepr_ge10 (by omega)] at hc
      rcases List.mem_append.mp hc with h | h
      · exact ih (n / 10) (Nat.div_lt_self (by omega) (by omega)) c h
      · simp at h
        exact h ▸ digitChar_isDigit (Nat.mod_lt n (by omega))

theorem decimalRepr_ne_nil (n : Nat) : decimalRepr n ≠ [] := by
  by_cases h10 : n < 10
  · rw [decimalRepr_lt10 h10]; simp
  · rw [decimalRepr_ge10 (by omega)]; simp

theorem digitsVal_append (num : Nat) (a b : List Char) :
    digitsVal num (a ++ b) = digitsVal (digitsVal num a) b := by
  simp [digitsVal, List.foldl_append]

theorem digitsVal_decimalRepr (n : Nat) : digitsVal 0 (decimalRepr n) = n := by
  induction n using Nat.strong_induction_on with
  | _ n ih =>
    by_cases h10 : n < 10
    · rw [decimalRepr_lt10 h10]
      simp [digitsVal, digitChar_toNat h10]
    · rw [decimalRepr_ge10 (by omega), digitsVal_append,
        ih (n / 10) (Nat.div_lt_self (by omega) (by omega))]
      simp [digitsVal, digitChar_toNat (Nat.mod_lt n (by omega))]
      omega

theorem isDigit_toNat {c : Char} (h : c.isDigit = true) :
    48 ≤ c.toNat ∧ c.toNat ≤ 57 := by
  simp [Char.isDigit] at h
  exact h

theorem digit_ne_special {c : Char} (h : c.isDigit = true) :
    c ≠ ':' ∧ c ≠ 'e' ∧ c ≠ '-' ∧ c ≠ 'i' ∧ c ≠ 'l' ∧ c ≠ 'd' := by
  refine ⟨?_, ?_, ?_, ?_, ?_, ?_⟩ <;> (intro he; subst he; exact absurd h (by decide))

theorem digit_mem_dispatch {c : Char} (h : c.isDigit = true) :
    c ∈ ['-', '0', '1', '2', '3', '4', '5', '6', '7', '8', '9'] := by
  obtain ⟨h1, h2⟩ := isDigit_toNat h
  have : c.toNat = 48 ∨ c.toNat = 49 ∨ c.toNat = 50 ∨ c.toNat = 51 ∨ c.toNat = 52 ∨
      c.toNat = 53 ∨ c.toNat = 54 ∨ c.toNat = 55 ∨ c.toNat = 56 ∨ c.toNat = 57 := by omega
  rcases this with h' | h' | h' | h' | h' | h' | h' | h' | h' | h' <;>
    (have hx := char_eq_of_toNat_eq (b := Char.ofNat (48 + (c.toNat - 48))) (by
      rw [h']; decide) ; simp [h'] at hx; subst hx; decide)

/-!  Positional reasoning helpers: reading and advancing the cursor in
terms of `List.drop`. -/

theorem getElem_of_drop {s t : List Char} {p : Nat} {c : Char}
    (h : s.drop p = c :: t) : s[p]? = some c := by
  have h0 : (s.drop p)[0]? = some c := by rw [h]; simp
  rw [List.getElem?_drop] at h0
  simpa using h0

theorem drop_chunk {s : List Char} {a b : List Char} {p : Nat}
    (h : s.drop p = a ++ b) : s.drop (p + a.length) = b := by
  rw [← List.drop_drop, h, List.drop_left]

theorem drop_cons {s t : List Char} {p : Nat} {c : Char}
    (h : s.drop p = c :: t) : s.drop (p + 1) = t := by
  have := drop_chunk (a := [c]) (b := t) (by simpa using h)
  simpa using this

theorem drop_length_le {s : List Char} {a b : List Char} {p : Nat}
    (h : s.drop p = a ++ b) : a.length + b.length ≤ s.length := by
  have := congrArg List.length h
  simp [List.length_drop] at this
  omega

/-!  Correctness of the parsing primitives on well-formed input. -/

theorem get_number_spec (s : List Char) (endChar : Char) :
    ∀ ds : List Char, (∀ c ∈ ds, c.isDigit = true ∧ c ≠ endChar) →
    ∀ rest num p fuel, s.drop p = ds ++ endChar :: rest → ds.length + 1 ≤ fuel →
    _get_number s endChar fuel num p = .ok (digitsVal num ds, p + ds.length + 1) := by
  intro ds
  induction ds with
  | nil =>
    intro _ rest num p fuel hs hfuel
    match fuel, hfuel with
    | f + 1, _ =>
      rw [_get_number]
      simp [getElem_of_drop hs, digitsVal]
  | cons c ds' ih =>
    intro hds rest num p fuel hs hfuel
    match fuel, hfuel with
    | f + 1, hfuel =>
      obtain ⟨hdig, hne⟩ := hds c (by simp)
      rw [_get_number]
      simp only [getElem_of_drop (show s.drop p = c :: (ds' ++ endChar :: rest) by
        simpa using hs), hne, pyInt_digit hdig, if_false, ite_false]
      rw [ih (fun x hx => hds x (by simp [hx])) rest _ (p + 1) f
        (drop_cons (show s.drop p = c :: (ds' ++ endChar :: rest) by simpa using hs))
        (by simpa using hfuel)]
      simp [digitsVal]
      omega

theorem parse_byte_string_spec (s body rest : List Char) (p : Nat)
    (hs : s.drop p = decimalRepr body.length ++ ':' :: (body ++ rest)) :
    _parse_byte_string s p =
      .ok (body, p + (decimalRepr body.length).length + 1 + body.length) := by
  have hds : ∀ c ∈ decimalRepr body.length, c.isDigit = true ∧ c ≠ ':' :=
    fun c hc => ⟨decimalRepr_digits _ c hc,
      (digit_ne_special (decimalRepr_digits _ c hc)).1⟩
  have hlen : (decimalRepr body.length).length + 1 ≤ s.length + 1 := by
    have := drop_length_le hs
    simp at this
    omega
  rw [_parse_byte_string, get_number_spec s ':' _ hds _ 0 p _ hs hlen]
  have h1 : s.drop (p + (decimalRepr body.length).length) = ':' :: (body ++ rest) :=
    drop_chunk hs
  have h2 : s.drop (p + (decimalRepr body.length).length + 1) = body ++ rest :=
    drop_cons h1
  simp [Bind.bind, Except.bind, h2, digitsVal_decimalRepr, List.take_left]

theorem parse_integer_spec (s rest : List Char) (n : Int) (p : Nat)
    (hs : s.drop p = _encode_integer n ++ rest) :
    _parse_integer s p = .ok (.int n, p + (_encode_integer n).length) := by
  have hds : ∀ c ∈ decimalRepr n.natAbs, c.isDigit = true ∧ c ≠ 'e' :=
    fun c hc => ⟨decimalRepr_digits _ c hc,
      (digit_ne_special (decimalRepr_digits _ c hc)).2.1⟩
  by_cases hn : n < 0
  · have hs' : s.drop p =
        'i' :: '-' :: (decimalRepr n.natAbs ++ 'e' :: rest) := by
      rw [hs, _encode_integer, if_pos hn]
      simp
    have h1 : s.drop (p + 1) = '-' :: (decimalRepr n.natAbs ++ 'e' :: rest) :=
      drop_cons hs'
    have h2 : s.drop (p + 2) = decimalRepr n.natAbs ++ 'e' :: rest := by
      have := drop_cons h1
      simpa [Nat.add_assoc] using this
    have hlen : (decimalRepr n.natAbs).length + 1 ≤ s.length + 1 := by
      have := drop_length_le h2
      simp at this
      omega
    rw [_parse_integer, getElem_of_drop h1,
      get_number_spec s 'e' _ hds rest 0 (p + 2) _ h2 hlen,
      digitsVal_decimalRepr]
    have henc : (_encode_integer n).length = (decimalRepr n.natAbs).length + 3 := by
      rw [_encode_integer, if_pos hn]
      simp
    simp [henc]
    refine ⟨by rw [abs_of_neg hn, neg_neg], by omega⟩
  · obtain ⟨c0, ds', hsplit⟩ := List.exists_cons_of_ne_nil (decimalRepr_ne_nil n.natAbs)
    have hs' : s.drop p = 'i' :: (decimalRepr n.natAbs ++ 'e' :: rest) := by
      rw [hs, _encode_integer, if_neg hn]
      simp
    have h1 : s.drop (p + 1) = decimalRepr n.natAbs ++ 'e' :: rest := drop_cons hs'
    have hc0 : s[p + 1]? = some c0 :=
      getElem_of_drop (t := ds' ++ 'e' :: rest) (by rw [h1, hsplit]; simp)
    have hc0dig : c0.isDigit = true := decimalRepr_digits _ c0 (by rw [hsplit]; simp)
    have hlen : (decimalRepr n.natAbs).length + 1 ≤ s.length + 1 := by
      have := drop_length_le h1
      simp at this
      omega
    rw [_parse_integer]
    simp only [hc0, if_neg (digit_ne_special hc0dig).2.2.1]
    rw [get_number_spec s 'e' _ hds rest 0 (p + 1) _ h1 hlen, digitsVal_decimalRepr]
    have henc : (_encode_integer n).length = (decimalRepr n.natAbs).length + 2 := by
      rw [_encode_integer, if_neg hn]
      simp
    simp [henc]
    omega

/-!  Insertion sort by key commutes with key-preserving maps, and basic
facts about encodings used by the loop lemmas. -/

theorem orderedInsert_map {α β : Type} (f : List Char × α → List Char × β)
    (hf : ∀ q, (f q).1 = q.1) (a : List Char × α) (l : List (List Char × α)) :
    List.orderedInsert keyRel (f a) (l.map f) =
      (List.orderedInsert keyRel a l).map f := by
  induction l with
  | nil => rfl
  | cons b t ih =>
    by_cases h : keyRel a b
    · have h' : keyRel (f a) (f b) := by
        unfold keyRel at h ⊢
        rw [hf a, hf b]
        exact h
      simp [List.orderedInsert, h, h']
    · have h' : ¬ keyRel (f a) (f b) := by
        unfold keyRel at h ⊢
        rw [hf a, hf b]
        exact h
      simp [List.orderedInsert, h, h', ih]

theorem insertionSort_map {α β : Type} (f : List Char × α → List Char × β)
    (hf : ∀ q, (f q).1 = q.1) (l : List (List Char × α)) :
    List.insertionSort keyRel (l.map f) = (List.insertionSort keyRel l).map f := by
  induction l with
  | nil => rfl
  | cons a t ih => simp [List.insertionSort, ih, orderedInsert_map f hf]

theorem foldNeed_nil : foldNeed [] = 1 := rfl

theorem foldNeed_cons (a : Nat) (xs : List Nat) :
    foldNeed (a :: xs) = 1 + max a (foldNeed xs) := rfl

theorem encode_string_length (s : List Char) :
    (_encode_string s).length = (decimalRepr s.length).length + 1 + s.length := by
  simp [_encode_string]
  omega

theorem decimalRepr_length_pos (n : Nat) : 1 ≤ (decimalRepr n).length := by
  cases h : decimalRepr n with
  | nil => exact absurd h (decimalRepr_ne_nil n)
  | cons c t => simp

theorem encodeV_ne_nil (v : BVal) : encodeV v ≠ [] := by
  cases v with
  | str s =>
    rw [encodeV_str, _encode_string]
    simp
  | int n => rw [encodeV_int, _encode_integer]; simp
  | list l => rw [encodeV_list]; simp
  | dict d => rw [encodeV_dict]; simp

theorem encodeV_length_pos (v : BVal) : 1 ≤ (encodeV v).length := by
  cases h : encodeV v with
  | nil => exact absurd h (encodeV_ne_nil v)
  | cons c t => simp

theorem encodeV_head_ne_e (v : BVal) (c : Char) (t : List Char)
    (h : encodeV v = c :: t) : c ≠ 'e' := by
  cases v with
  | str s =>
    rw [encodeV_str, _encode_string] at h
    obtain ⟨c0, ds', hsplit⟩ :=
      List.exists_cons_of_ne_nil (decimalRepr_ne_nil s.length)
    rw [hsplit] at h
    simp at h
    exact h.1 ▸ (digit_ne_special (decimalRepr_digits _ c0 (by rw [hsplit]; simp))).2.1
  | int n =>
    rw [encodeV_int, _encode_integer] at h
    simp at h
    intro he
    rw [he] at h
    exact absurd h.1 (by decide)
  | list l =>
    rw [encodeV_list] at h
    simp at h
    intro he
    rw [he] at h
    exact absurd h.1 (by decide)
  | dict d =>
    rw [encodeV_dict] at h
    simp at h
    intro he
    rw [he] at h
    exact absurd h.1 (by decide)

/-!  Correctness of the container loops on well-formed input. -/

theorem runList_spec (s : List Char) (elems : List BVal)
    (hIH : ∀ v ∈ elems, ∀ p rest fuel, s.drop p = encodeV v ++ rest → needV v ≤ fuel →
      runDecode s fuel .val p = .ok (canon v, p + (encodeV v).length)) :
    ∀ acc p fuel rest, s.drop p = (elems.map encodeV).flatten ++ 'e' :: rest →
      foldNeed (elems.map needV) ≤ fuel →
      runDecode s fuel (.listLoop acc) p =
        .ok (.list (acc ++ elems.map canon),
          p + (elems.map encodeV).flatten.length + 1) := by
  induction elems with
  | nil =>
    intro acc p fuel rest hs hfuel
    match fuel, hfuel with
    | f + 1, _ =>
      rw [runDecode]
      simp at hs
      simp [getElem_of_drop hs]
  | cons v t ih =>
    intro acc p fuel rest hs hfuel
    rw [List.map_cons, foldNeed_cons] at hfuel
    obtain ⟨f, rfl⟩ : ∃ f, fuel = f + 1 := by
      cases fuel with
      | zero => omega
      | succ f => exact ⟨f, rfl⟩
    · obtain ⟨c0, tv, hsplit⟩ := List.exists_cons_of_ne_nil (encodeV_ne_nil v)
      have hs' : s.drop p = encodeV v ++ ((t.map encodeV).flatten ++ 'e' :: rest) := by
        rw [hs]
        simp
      have hc0 : s[p]? = some c0 := getElem_of_drop (by rw [hs', hsplit]; rfl)
      rw [runDecode]
      simp only [hc0, if_neg (encodeV_head_ne_e v c0 tv hsplit)]
      rw [hIH v (by simp) p _ f hs' (by omega)]
      have hdrop : s.drop (p + (encodeV v).length) =
          (t.map encodeV).flatten ++ 'e' :: rest := drop_chunk hs'
      rw [show ((Except.ok (canon v, p + (encodeV v).length) :
          Except DErr (BVal × Nat)) >>= fun x =>
          runDecode s f (.listLoop (acc ++ [x.1])) x.2) =
        runDecode s f (.listLoop (acc ++ [canon v])) (p + (encodeV v).length) from rfl]
      rw [ih (fun w hw => hIH w (by simp [hw])) (acc ++ [canon v])
        (p + (encodeV v).length) f rest hdrop (by omega)]
      simp
      omega

theorem runDict_spec (s : List Char) (pairs : List (List Char × BVal))
    (hIH : ∀ q ∈ pairs, ∀ p rest fuel, s.drop p = encodeV q.2 ++ rest →
      needV q.2 ≤ fuel →
      runDecode s fuel .val p = .ok (canon q.2, p + (encodeV q.2).length)) :
    ∀ acc p fuel rest,
      s.drop p = (pairs.map fun q => _encode_string q.1 ++ encodeV q.2).flatten ++
        'e' :: rest →
      foldNeed (pairs.map fun q => needV q.2) ≤ fuel →
      runDecode s fuel (.dictLoop acc) p =
        .ok (.dict (pairs.foldl (fun a q => dictInsert a q.1 (canon q.2)) acc),
          p + (pairs.map fun q => _encode_string q.1 ++ encodeV q.2).flatten.length
            + 1) := by
  induction pairs with
  | nil =>
    intro acc p fuel rest hs hfuel
    match fuel, hfuel with
    | f + 1, _ =>
      rw [runDecode]
      simp at hs
      simp [getElem_of_drop hs]
  | cons q t ih =>
    intro acc p fuel rest hs hfuel
    rw [List.map_cons, foldNeed_cons] at hfuel
    obtain ⟨f, rfl⟩ : ∃ f, fuel = f + 1 := by
      cases fuel with
      | zero => omega
      | succ f => exact ⟨f, rfl⟩
    · obtain ⟨c0, ds', hdsplit⟩ :=
        List.exists_cons_of_ne_nil (decimalRepr_ne_nil q.1.length)
      have hc0dig : c0.isDigit = true :=
        decimalRepr_digits _ c0 (by rw [hdsplit]; simp)
      have hs' : s.drop p = decimalRepr q.1.length ++
          ':' :: (q.1 ++ (encodeV q.2 ++
            ((t.map fun r => _encode_string r.1 ++ encodeV r.2).flatten
              ++ 'e' :: rest))) := by
        rw [hs]
        simp [_encode_string]
      have hc0 : s[p]? = some c0 := getElem_of_drop (by rw [hs', hdsplit]; rfl)
      rw [runDecode]
      simp only [hc0, if_neg (digit_ne_special hc0dig).2.1]
      rw [parse_byte_string_spec s q.1 _ p hs']
      have hp1 : p + (decimalRepr q.1.length).length + 1 + q.1.length =
          p + (_encode_string q.1).length := by
        rw [encode_string_length]
        omega
      have hdrop1 : s.drop (p + (_encode_string q.1).length) =
          encodeV q.2 ++ ((t.map fun r => _encode_string r.1 ++ encodeV r.2).flatten
            ++ 'e' :: rest) := by
        have := drop_chunk (a := _encode_string q.1)
          (b := encodeV q.2 ++ ((t.map fun r => _encode_string r.1 ++
            encodeV r.2).flatten ++ 'e' :: rest)) (by rw [hs]; simp)
        exact this
      rw [show ((Except.ok (q.1, p + (decimalRepr q.1.length).length + 1 + q.1.length) :
          Except DErr (List Char × Nat)) >>= fun x =>
          (runDecode s f .val x.2 >>= fun y =>
            runDecode s f (.dictLoop (dictInsert acc x.1 y.1)) y.2)) =
        (runDecode s f .val (p + (decimalRepr q.1.length).length + 1 + q.1.length)
          >>= fun y =>
            runDecode s f (.dictLoop (dictInsert acc q.1 y.1)) y.2) from rfl]
      rw [hp1, hIH q (by simp) _ _ f hdrop1 (by omega)]
      have hdrop2 : s.drop (p + (_encode_string q.1).length + (encodeV q.2).length) =
          (t.map fun r => _encode_string r.1 ++ encodeV r.2).flatten ++ 'e' :: rest :=
        drop_chunk hdrop1
      rw [show ((Except.ok (canon q.2,
          p + (_encode_string q.1).length + (encodeV q.2).length) :
          Except DErr (BVal × Nat)) >>= fun y =>
          runDecode s f (.dictLoop (dictInsert acc q.1 y.1)) y.2) =
        runDecode s f (.dictLoop (dictInsert acc q.1 (canon q.2)))
          (p + (_encode_string q.1).length + (encodeV q.2).length) from rfl]
      rw [ih (fun r hr => hIH r (by simp [hr])) (dictInsert acc q.1 (canon q.2))
        _ f rest hdrop2 (by omega)]
      simp
      omega

/-!  Support lemmas for the main decode-of-encode theorem. -/

theorem needV_str (s : List Char) : needV (.str s) = 1 := by simp [needV]

theorem needV_int (n : Int) : needV (.int n) = 1 := by simp [needV]

theorem all_id_map {α : Type} (l : List α) (f : α → Bool) :
    (l.map f).all id = true ↔ ∀ x ∈ l, f x = true := by
  simp

theorem nodupKeysV_list_mem {l : List BVal} (h : nodupKeysV (.list l) = true) :
    ∀ v ∈ l, nodupKeysV v = true := by
  rw [nodupKeysV_list] at h
  exact (all_id_map l nodupKeysV).mp h

theorem nodupKeysV_dict_mem {d : List (List Char × BVal)}
    (h : nodupKeysV (.dict d) = true) : ∀ q ∈ d, nodupKeysV q.2 = true := by
  rw [nodupKeysV_dict] at h
  have := (Bool.and_eq_true _ _).mp h
  intro q hq
  exact (all_id_map d (fun q => nodupKeysV q.2)).mp this.2 q hq

theorem nodupKeysV_dict_keys {d : List (List Char × BVal)}
    (h : nodupKeysV (.dict d) = true) : (d.map Prod.fst).Nodup := by
  rw [nodupKeysV_dict] at h
  have := (Bool.and_eq_true _ _).mp h
  exact of_decide_eq_true this.1

theorem encodeV_dict_sorted (d : List (List Char × BVal)) :
    encodeV (.dict d) =
      'd' :: ((List.insertionSort keyRel d).map
        fun q => _encode_string q.1 ++ encodeV q.2).flatten ++ ['e'] := by
  rw [encodeV_dict,
    insertionSort_map (fun q => (q.1, encodeV q.2)) (fun q => rfl) d]
  simp [List.map_map]
  rfl

theorem needV_dict_sorted (d : List (List Char × BVal)) :
    needV (.dict d) =
      1 + foldNeed ((List.insertionSort keyRel d).map fun q => needV q.2) := by
  rw [needV_dict,
    insertionSort_map (fun q => (q.1, needV q.2)) (fun q => rfl) d]
  simp [List.map_map]
  rfl

theorem mem_insertionSort {α : Type} (r : α → α → Prop) [DecidableRel r]
    {l : List α} {a : α} : a ∈ List.insertionSort r l ↔ a ∈ l :=
  (List.perm_insertionSort r l).mem_iff

theorem foldl_dictInsert_append (l : List (List Char × BVal)) :
    ∀ acc, (∀ q ∈ l, ∀ r ∈ acc, q.1 ≠ r.1) → KeysNodup l →
    l.foldl (fun a q => dictInsert a q.1 q.2) acc = acc ++ l := by
  induction l with
  | nil => intro acc _ _; simp
  | cons q t ih =>
    intro acc hdisj hnodup
    have hany : acc.any (fun r => r.1 == q.1) = false := by
      rw [List.any_eq_false]
      intro r hr
      simpa using (hdisj q (by simp) r hr).symm
    have hstep : dictInsert acc q.1 q.2 = acc ++ [q] := by
      rw [dictInsert, if_neg (by rw [hany]; simp)]
    rw [List.foldl_cons, hstep, ih (acc ++ [q])]
    · simp
    · intro r hr r' hr'
      rcases List.mem_append.mp hr' with h | h
      · exact hdisj r (by simp [hr]) r' h
      · have hq : r' = q := by simpa using h
        rw [hq]
        have := hnodup
        rw [KeysNodup, List.map_cons, List.nodup_cons] at this
        intro he
        exact this.1 (he ▸ List.mem_map_of_mem Prod.fst hr)
    · have := hnodup
      rw [KeysNodup, List.map_cons, List.nodup_cons] at this
      exact this.2

theorem buildD_eq_self {l : List (List Char × BVal)} (h : KeysNodup l) :
    buildD l = l := by
  rw [buildD, foldl_dictInsert_append l [] (by simp) h]
  simp

/-- Main decoding theorem: on the encoding of any value whose nested
dictionaries have unique keys (i.e. any value a real Python value tree can
denote), the decoder dispatch consumes exactly the encoding and rebuilds
the canonicalized value, for any fuel at least `needV v`. -/
theorem run_val_spec : ∀ v : BVal, nodupKeysV v = true →
    ∀ s p rest fuel, s.drop p = encodeV v ++ rest → needV v ≤ fuel →
    runDecode s fuel .val p = .ok (canon v, p + (encodeV v).length) := by
  intro v
  induction v using BVal.memInduction with
  | hstr s' =>
    intro _ s p rest fuel hs hfuel
    rw [needV_str] at hfuel
    obtain ⟨f, rfl⟩ : ∃ f, fuel = f + 1 := by
      cases fuel with
      | zero => omega
      | succ f => exact ⟨f, rfl⟩
    rw [encodeV_str, _encode_string] at hs
    obtain ⟨c0, ds', hsplit⟩ :=
      List.exists_cons_of_ne_nil (decimalRepr_ne_nil s'.length)
    have hc0dig : c0.isDigit = true :=
      decimalRepr_digits _ c0 (by rw [hsplit]; simp)
    have hc0 : s[p]? = some c0 := getElem_of_drop (by rw [hs, hsplit]; rfl)
    rw [runDecode]
    simp only [hc0, if_neg (digit_ne_special hc0dig).2.2.2.1,
      if_neg (digit_ne_special hc0dig).2.2.2.2.1,
      if_neg (digit_ne_special hc0dig).2.2.2.2.2,
      if_pos (digit_mem_dispatch hc0dig)]
    rw [parse_byte_string_spec s s' rest p (by rw [hs]; simp)]
    rw [encodeV_str]
    simp [canon, encode_string_length]
    omega
  | hint n =>
    intro _ s p rest fuel hs hfuel
    rw [needV_int] at hfuel
    obtain ⟨f, rfl⟩ : ∃ f, fuel = f + 1 := by
      cases fuel with
      | zero => omega
      | succ f => exact ⟨f, rfl⟩
    rw [encodeV_int] at hs
    have hc0 : s[p]? = some 'i' := getElem_of_drop (by rw [hs, _encode_integer]; rfl)
    rw [runDecode]
    simp only [hc0, if_pos rfl]
    rw [parse_integer_spec s rest n p hs, encodeV_int]
    simp [canon]
  | hlist l hIH =>
    intro hnod s p rest fuel hs hfuel
    rw [needV_list] at hfuel
    obtain ⟨f, rfl⟩ : ∃ f, fuel = f + 1 := by
      cases fuel with
      | zero => omega
      | succ f => exact ⟨f, rfl⟩
    rw [encodeV_list] at hs
    have hs' : s.drop p = 'l' :: ((l.map encodeV).flatten ++ 'e' :: rest) := by
      rw [hs]
      simp
    have hc0 : s[p]? = some 'l' := getElem_of_drop hs'
    rw [runDecode]
    simp only [hc0, if_neg (by decide : ¬ ('l' : Char) = 'i'), if_pos rfl]
    rw [runList_spec s l
      (fun v hv => hIH v hv (nodupKeysV_list_mem hnod v hv) s)
      [] (p + 1) f rest (drop_cons hs') (by omega)]
    rw [encodeV_list, canon_list]
    simp
    omega
  | hdict d hIH =>
    intro hnod s p rest fuel hs hfuel
    rw [needV_dict_sorted] at hfuel
    obtain ⟨f, rfl⟩ : ∃ f, fuel = f + 1 := by
      cases fuel with
      | zero => omega
      | succ f => exact ⟨f, rfl⟩
    rw [encodeV_dict_sorted] at hs
    have hs' : s.drop p = 'd' ::
        (((List.insertionSort keyRel d).map
          fun q => _encode_string q.1 ++ encodeV q.2).flatten ++ 'e' :: rest) := by
      rw [hs]
      simp
    have hc0 : s[p]? = some 'd' := getElem_of_drop hs'
    rw [runDecode]
    simp only [hc0, if_neg (by decide : ¬ ('d' : Char) = 'i'),
      if_neg (by decide : ¬ ('d' : Char) = 'l'), if_pos rfl]
    rw [runDict_spec s (List.insertionSort keyRel d)
      (fun q hq => hIH q ((mem_insertionSort keyRel).mp hq)
        (nodupKeysV_dict_mem hnod q ((mem_insertionSort keyRel).mp hq)) s)
      [] (p + 1) f rest (drop_cons hs') (by omega)]
    have hfold : (List.insertionSort keyRel d).foldl
        (fun a q => dictInsert a q.1 (canon q.2)) [] =
        buildD ((List.insertionSort keyRel d).map fun q => (q.1, canon q.2)) := by
      rw [buildD, List.foldl_map]
    have hsortmap : (List.insertionSort keyRel d).map (fun q => (q.1, canon q.2)) =
        List.insertionSort keyRel (d.map fun q => (q.1, canon q.2)) :=
      (insertionSort_map (fun q => (q.1, canon q.2)) (fun q => rfl) d).symm
    have hkeysnodup : KeysNodup ((List.insertionSort keyRel d).map
        fun q => (q.1, canon q.2)) := by
      rw [KeysNodup, List.map_map]
      have hperm : ((List.insertionSort keyRel d).map
          fun q => (Prod.fst ∘ fun q => (q.1, canon q.2)) q).Perm (d.map Prod.fst) :=
        List.Perm.map _ (List.perm_insertionSort keyRel d)
      exact hperm.nodup_iff.mpr (nodupKeysV_dict_keys hnod)
    rw [hfold, buildD_eq_self hkeysnodup, hsortmap, encodeV_dict_sorted, ← canon_dict]
    simp
    omega

/-!  The default fuel `s.length + 1` used by `decode` dominates the
required fuel on encoded input. -/

theorem foldNeed_le_list (l : List BVal)
    (h : ∀ v ∈ l, needV v ≤ (encodeV v).length) :
    foldNeed (l.map needV) ≤ (l.map encodeV).flatten.length + 1 := by
  induction l with
  | nil => simp [foldNeed]
  | cons v t ih =>
    rw [List.map_cons, foldNeed_cons]
    have h1 := h v (by simp)
    have h2 := ih (fun w hw => h w (by simp [hw]))
    have h3 := encodeV_length_pos v
    simp only [List.map_cons, List.flatten_cons, List.length_append]
    omega

theorem foldNeed_le_dict (l : List (List Char × BVal))
    (h : ∀ q ∈ l, needV q.2 ≤ (encodeV q.2).length) :
    foldNeed (l.map fun q => needV q.2) ≤
      ((l.map fun q => _encode_string q.1 ++ encodeV q.2).flatten).length + 1 := by
  induction l with
  | nil => simp [foldNeed]
  | cons q t ih =>
    rw [List.map_cons, foldNeed_cons]
    have h1 := h q (by simp)
    have h2 := ih (fun r hr => h r (by simp [hr]))
    have h3 := encodeV_length_pos q.2
    have h4 : 2 ≤ (_encode_string q.1).length := by
      rw [encode_string_length]
      have := decimalRepr_length_pos q.1.length
      omega
    simp only [List.map_cons, List.flatten_cons, List.length_append]
    omega

theorem need_le_len : ∀ v : BVal, needV v ≤ (encodeV v).length := by
  intro v
  induction v using BVal.memInduction with
  | hstr s => rw [needV_str]; exact encodeV_length_pos _
  | hint n => rw [needV_int]; exact encodeV_length_pos _
  | hlist l hIH =>
    rw [needV_list, encodeV_list]
    have := foldNeed_le_list l hIH
    simp only [List.length_append, List.length_cons, List.length_nil]
    omega
  | hdict d hIH =>
    rw [needV_dict_sorted, encodeV_dict_sorted]
    have := foldNeed_le_dict (List.insertionSort keyRel d)
      (fun q hq => hIH q ((mem_insertionSort keyRel).mp hq))
    simp only [List.length_append, List.length_cons, List.length_nil]
    omega

/-- Decoding an encoded value with any trailing bytes succeeds and
returns the canonicalized value: `decode` never requires the parse to
consume the entire buffer. -/
theorem decode_encode_trailing (v : BVal) (hnod : nodupKeysV v = true)
    (t : List Char) : decode (encodeV v ++ t) = .ok (some (canon v)) := by
  have hrun := run_val_spec v hnod (encodeV v ++ t) 0 t
    (2 * (encodeV v ++ t).length + 2) (by simp) (by
      have h1 := need_le_len v
      simp
      omega)
  rw [decode, hrun]

/-!  Canonical form: strictly sorted keys make `canon` the identity, and
imply unique keys. -/

instance KeyLt_trans : IsTrans (List Char) KeyLt :=
  ⟨fun a b c h1 h2 =>
    ⟨keyLe_trans a b c h1.1 h2.1, fun he => h2.2 (keyLe_antisymm b c h2.1 (he ▸ h1.1))⟩⟩

theorem keysStrict_chain : ∀ ks, keysStrictSorted ks = true → List.Chain' KeyLt ks
  | [], _ => List.chain'_nil
  | [_], _ => by simp
  | a :: b :: t, h => by
    rw [keysStrictSorted] at h
    simp only [Bool.and_eq_true] at h
    rw [List.chain'_cons]
    refine ⟨⟨h.1.1, ?_⟩, keysStrict_chain (b :: t) h.2⟩
    intro he
    have hb := h.1.2
    rw [he] at hb
    simp at hb

theorem keysStrict_pairwise {ks : List (List Char)}
    (h : keysStrictSorted ks = true) : ks.Pairwise KeyLt :=
  List.chain'_iff_pairwise.mp (keysStrict_chain ks h)

theorem keys_nodup_of_strict {ks : List (List Char)}
    (h : keysStrictSorted ks = true) : ks.Nodup :=
  (keysStrict_pairwise h).imp (fun hab => hab.2)

theorem sorted_pairs_of_strict {d : List (List Char × BVal)}
    (h : keysStrictSorted (d.map Prod.fst) = true) : List.Sorted keyRel d := by
  have hp : (d.map Prod.fst).Pairwise KeyLt := keysStrict_pairwise h
  rw [List.pairwise_map] at hp
  exact hp.imp (fun hab => hab.1)

theorem canonical_nodup : ∀ v, isCanonical v = true → nodupKeysV v = true := by
  intro v
  induction v using BVal.memInduction with
  | hstr s => intro _; simp [nodupKeysV]
  | hint n => intro _; simp [nodupKeysV]
  | hlist l hIH =>
    intro h
    rw [isCanonical_list] at h
    rw [nodupKeysV_list]
    exact (all_id_map _ _).mpr fun v hv =>
      hIH v hv ((all_id_map _ _).mp h v hv)
  | hdict d hIH =>
    intro h
    rw [isCanonical_dict] at h
    simp only [Bool.and_eq_true] at h
    rw [nodupKeysV_dict]
    simp only [Bool.and_eq_true]
    constructor
    · simp [keys_nodup_of_strict h.1]
    · exact (all_id_map _ _).mpr fun q hq =>
        hIH q hq ((all_id_map _ _).mp h.2 q hq)

theorem canon_eq_self : ∀ v, isCanonical v = true → canon v = v := by
  intro v
  induction v using BVal.memInduction with
  | hstr s => intro _; simp [canon]
  | hint n => intro _; simp [canon]
  | hlist l hIH =>
    intro h
    rw [isCanonical_list] at h
    rw [canon_list]
    congr 1
    have : l.map canon = l.map id :=
      List.map_eq_map_iff.mpr fun v hv => hIH v hv ((all_id_map _ _).mp h v hv)
    simpa using this
  | hdict d hIH =>
    intro h
    rw [isCanonical_dict] at h
    simp only [Bool.and_eq_true] at h
    rw [canon_dict]
    have hmap : d.map (fun q => (q.1, canon q.2)) = d.map id := by
      refine List.map_eq_map_iff.mpr fun q hq => ?_
      rw [hIH q hq ((all_id_map _ _).mp h.2 q hq)]
      simp
    rw [hmap]
    simp only [List.map_id]
    congr 1
    exact (sorted_pairs_of_strict h.1).insertionSort_eq

theorem encode_canon : ∀ v, encodeV (canon v) = encodeV v := by
  intro v
  induction v using BVal.memInduction with
  | hstr s => simp [canon]
  | hint n => simp [canon]
  | hlist l hIH =>
    rw [canon_list, encodeV_list, encodeV_list, List.map_map]
    rw [show l.map (encodeV ∘ canon) = l.map encodeV from
      List.map_eq_map_iff.mpr fun v hv => hIH v hv]
  | hdict d hIH =>
    rw [canon_dict]
    have hS : List.insertionSort keyRel (d.map fun q => (q.1, canon q.2)) =
        (List.insertionSort keyRel d).map fun q => (q.1, canon q.2) :=
      insertionSort_map (fun q => (q.1, canon q.2)) (fun q => rfl) d
    rw [encodeV_dict_sorted, hS, encodeV_dict_sorted]
    have hsorted : List.Sorted keyRel
        ((List.insertionSort keyRel d).map fun q => (q.1, canon q.2)) :=
      List.Pairwise.map _ (fun a b hab => hab) (List.sorted_insertionSort keyRel d)
    rw [hsorted.insertionSort_eq, List.map_map]
    rw [show (List.insertionSort keyRel d).map
        ((fun q => _encode_string q.1 ++ encodeV q.2) ∘ fun q => (q.1, canon q.2)) =
        (List.insertionSort keyRel d).map
          (fun q => _encode_string q.1 ++ encodeV q.2) from
      List.map_eq_map_iff.mpr fun q hq => by
        simp only [Function.comp]
        rw [hIH q ((mem_insertionSort keyRel).mp hq)]]

/-!  The mapping semantics of `dictInsert`: last write wins. -/

theorem lookup_map_upd {t : List (List Char × BVal)} {k' : List Char} {v : BVal}
    (h : ∀ r ∈ t, r.1 ≠ k') :
    t.map (fun q => if q.1 == k' then (q.1, v) else q) = t := by
  have : t.map (fun q => if q.1 == k' then (q.1, v) else q) = t.map id :=
    List.map_eq_map_iff.mpr fun q hq => by
      rw [if_neg (by simpa using h q hq)]
      rfl
  simpa using this

theorem dictInsert_nodup {d : List (List Char × BVal)} {k : List Char} {v : BVal}
    (h : KeysNodup d) : KeysNodup (dictInsert d k v) := by
  rw [dictInsert]
  by_cases ha : d.any (fun q => q.1 == k) = true
  · rw [if_pos ha]
    have : (d.map fun q => if q.1 == k then (q.1, v) else q).map Prod.fst =
        d.map Prod.fst := by
      rw [List.map_map]
      refine List.map_eq_map_iff.mpr fun q hq => ?_
      by_cases hq1 : q.1 == k <;> simp [Function.comp, hq1]
    rw [KeysNodup, this]
    exact h
  · rw [if_neg ha]
    rw [Bool.not_eq_true, List.any_eq_false] at ha
    rw [KeysNodup, List.map_append]
    simp only [List.map_cons, List.map_nil]
    rw [List.nodup_append]
    refine ⟨h, by simp, ?_⟩
    intro a haa hak
    obtain ⟨q, hqmem, hq1⟩ := List.mem_map.mp haa
    have hk : a = k := by simpa using hak
    have hne : q.1 ≠ k := by simpa using ha q hqmem
    exact hne (hq1.trans hk)

theorem dictInsert_lookup (k' : List Char) (v : BVal) :
    ∀ d, KeysNodup d → ∀ k, lookupKV (dictInsert d k' v) k =
      if k = k' then some v else lookupKV d k := by
  intro d
  induction d with
  | nil =>
    intro _ k
    rw [dictInsert, if_neg (by simp), List.nil_append]
    by_cases hk : k = k'
    · rw [if_pos hk, lookupKV, if_pos hk.symm]
    · rw [if_neg hk]
      simp [lookupKV, show ¬ k' = k from fun he => hk he.symm]
  | cons q t ih =>
    intro hnodup k
    have hnodt : KeysNodup t := by
      rw [KeysNodup, List.map_cons, List.nodup_cons] at hnodup
      exact hnodup.2
    have hhead : q.1 ∉ t.map Prod.fst := by
      rw [KeysNodup, List.map_cons, List.nodup_cons] at hnodup
      exact hnodup.1
    by_cases hq : q.1 = k'
    · have ha : (q :: t).any (fun r => r.1 == k') = true := by simp [hq]
      rw [dictInsert, if_pos ha]
      have htail : ∀ r ∈ t, r.1 ≠ k' := by
        intro r hr he
        exact hhead (hq ▸ he ▸ List.mem_map_of_mem Prod.fst hr)
      rw [List.map_cons, if_pos (by simpa using hq), lookup_map_upd htail]
      by_cases hk : k = k'
      · rw [if_pos hk, lookupKV, if_pos (by rw [hq, hk])]
      · have hq1k : ¬ q.1 = k := fun he => hk ((he.symm.trans hq))
        rw [if_neg hk, lookupKV, if_neg hq1k, lookupKV, if_neg hq1k]
    · by_cases ht : t.any (fun r => r.1 == k') = true
      · have ha : (q :: t).any (fun r => r.1 == k') = true := by
          simp only [List.any_cons, Bool.or_eq_true]
          exact Or.inr ht
        rw [dictInsert, if_pos ha, List.map_cons, if_neg (by simpa using hq)]
        have hins : dictInsert t k' v =
            t.map (fun r => if r.1 == k' then (r.1, v) else r) := by
          rw [dictInsert, if_pos ht]
        have hrec := ih hnodt k
        rw [hins] at hrec
        by_cases hqk : q.1 = k
        · have hkk' : ¬ k = k' := fun hk => hq (hqk.trans hk)
          rw [if_neg hkk', lookupKV, if_pos hqk, lookupKV, if_pos hqk]
        · rw [lookupKV, if_neg hqk, hrec]
          by_cases hk : k = k'
          · rw [if_pos hk, if_pos hk]
          · rw [if_neg hk, if_neg hk, lookupKV, if_neg hqk]
      · have ha : ¬ ((q :: t).any (fun r => r.1 == k') = true) := by
          simp only [List.any_cons, Bool.or_eq_true]
          rintro (h | h)
          · exact hq (by simpa using h)
          · rw [h] at ht
            exact ht rfl
        rw [dictInsert, if_neg ha, List.cons_append]
        have hins : dictInsert t k' v = t ++ [(k', v)] := by
          rw [dictInsert, if_neg (by rw [Bool.not_eq_true] at ht ⊢; exact ht)]
        have hrec := ih hnodt k
        rw [hins] at hrec
        by_cases hqk : q.1 = k
        · have hkk' : ¬ k = k' := fun hk => hq (hqk.trans hk)
          rw [if_neg hkk', lookupKV, if_pos hqk, lookupKV, if_pos hqk]
        · rw [lookupKV, if_neg hqk, hrec]
          by_cases hk : k = k'
          · rw [if_pos hk, if_pos hk]
          · rw [if_neg hk, if_neg hk, lookupKV, if_neg hqk]

theorem buildD_append (l : List (List Char × BVal)) (q : List Char × BVal) :
    buildD (l ++ [q]) = dictInsert (buildD l) q.1 q.2 := by
  simp [buildD, List.foldl_append]

theorem buildD_nodup : ∀ l : List (List Char × BVal), KeysNodup (buildD l) := by
  intro l
  induction l using List.reverseRecOn with
  | nil => simp [buildD, KeysNodup]
  | append_singleton l q ih =>
    rw [buildD_append]
    exact dictInsert_nodup ih

theorem buildD_lastwins (l : List (List Char × BVal)) (k : List Char) :
    lookupKV (buildD l) k = lookupKV l.reverse k := by
  induction l using List.reverseRecOn with
  | nil => rfl
  | append_singleton l q ih =>
    rw [buildD_append, dictInsert_lookup q.1 q.2 (buildD l) (buildD_nodup l) k,
      List.reverse_append]
    simp only [List.reverse_cons, List.reverse_nil, List.nil_append,
      List.singleton_append, lookupKV]
    by_cases hk : k = q.1
    · rw [if_pos hk, if_pos hk.symm]
    · rw [if_neg hk, if_neg (fun he => hk he.symm), ih]
      rfl

/-!  The decoder's fuel is irrelevant above the `needT` threshold: every
successful step advances the cursor, so from cursor `p` at most
`s.length - p` loop iterations and dispatches remain, and the fuel
`2 * s.length + 2` passed by `decode` can never be exhausted before the
source's own recursion would have stopped (by success or exception). -/

theorem get_number_adv (s : List Char) (endChar : Char) :
    ∀ fuel num p r p', _get_number s endChar fuel num p = .ok (r, p') → p < p' := by
  intro fuel
  induction fuel with
  | zero =>
    intro num p r p' h
    rw [_get_number] at h
    simp at h
  | succ f ih =>
    intro num p r p' h
    rw [_get_number] at h
    cases hc : s[p]? with
    | none => simp only [hc] at h; simp at h
    | some c =>
      simp only [hc] at h
      by_cases hce : c = endChar
      · rw [if_pos hce] at h
        simp at h
        omega
      · rw [if_neg hce] at h
        cases hp : pyInt c with
        | none => simp only [hp] at h; simp at h
        | some d =>
          simp only [hp] at h
          have := ih _ _ _ _ h
          omega

theorem parse_byte_string_adv (s : List Char) (p : Nat) (r : List Char) (p' : Nat)
    (h : _parse_byte_string s p = .ok (r, p')) : p < p' := by
  rw [_parse_byte_string] at h
  cases hg : _get_number s ':' (s.length + 1) 0 p with
  | error e => simp only [hg] at h; simp [Bind.bind, Except.bind] at h
  | ok q =>
    obtain ⟨len, pn⟩ := q
    simp only [hg] at h
    simp [Bind.bind, Except.bind] at h
    have := get_number_adv s ':' _ _ _ _ _ hg
    omega

theorem parse_integer_adv (s : List Char) (p : Nat) (v : BVal) (p' : Nat)
    (h : _parse_integer s p = .ok (v, p')) : p < p' := by
  rw [_parse_integer] at h
  cases hc : s[p + 1]? with
  | none => simp only [hc] at h; simp at h
  | some c =>
    simp only [hc] at h
    by_cases hcm : c = '-'
    · rw [if_pos hcm] at h
      cases hg : _get_number s 'e' (s.length + 1) 0 (p + 2) with
      | error e => simp only [hg] at h; simp at h
      | ok q =>
        obtain ⟨num, pn⟩ := q
        simp only [hg] at h
        simp at h
        have := get_number_adv s 'e' _ _ _ _ _ hg
        omega
    · rw [if_neg hcm] at h
      cases hg : _get_number s 'e' (s.length + 1) 0 (p + 1) with
      | error e => simp only [hg] at h; simp at h
      | ok q =>
        obtain ⟨num, pn⟩ := q
        simp only [hg] at h
        simp at h
        have := get_number_adv s 'e' _ _ _ _ _ hg
        omega

theorem runDecode_adv (s : List Char) :
    ∀ fuel task p v p', runDecode s fuel task p = .ok (v, p') → p < p' := by
  intro fuel
  induction fuel with
  | zero =>
    intro task p v p' h
    rw [runDecode] at h
    simp at h
  | succ f ih =>
    intro task p v p' h
    cases task with
    | val =>
      rw [runDecode] at h
      cases hc : s[p]? with
      | none => simp only [hc] at h; simp at h
      | some c =>
        simp only [hc] at h
        by_cases hci : c = 'i'
        · rw [if_pos hci] at h
          exact parse_integer_adv s p v p' h
        · rw [if_neg hci] at h
          by_cases hcl : c = 'l'
          · rw [if_pos hcl] at h
            have := ih (.listLoop []) (p + 1) v p' h
            omega
          · rw [if_neg hcl] at h
            by_cases hcd : c = 'd'
            · rw [if_pos hcd] at h
              have := ih (.dictLoop []) (p + 1) v p' h
              omega
            · rw [if_neg hcd] at h
              by_cases hcs : c ∈ ['-', '0', '1', '2', '3', '4', '5', '6', '7',
                  '8', '9']
              · rw [if_pos hcs] at h
                cases hb : _parse_byte_string s p with
                | error e => simp only [hb] at h; simp at h
                | ok q =>
                  obtain ⟨str, pn⟩ := q
                  simp only [hb] at h
                  simp at h
                  have := parse_byte_string_adv s p str pn hb
                  omega
              · rw [if_neg hcs] at h
                simp at h
    | listLoop acc =>
      rw [runDecode] at h
      cases hc : s[p]? with
      | none => simp only [hc] at h; simp at h
      | some c =>
        simp only [hc] at h
        by_cases hce : c = 'e'
        · rw [if_pos hce] at h
          simp at h
          omega
        · rw [if_neg hce] at h
          cases he : runDecode s f .val p with
          | error e => simp only [he] at h; simp [Bind.bind, Except.bind] at h
          | ok r =>
            obtain ⟨v₁, p₁⟩ := r
            simp only [he] at h
            simp only [Bind.bind, Except.bind] at h
            have h1 := ih .val p v₁ p₁ he
            have h2 := ih (.listLoop (acc ++ [v₁])) p₁ v p' h
            omega
    | dictLoop acc =>
      rw [runDecode] at h
      cases hc : s[p]? with
      | none => simp only [hc] at h; simp at h
      | some c =>
        simp only [hc] at h
        by_cases hce : c = 'e'
        · rw [if_pos hce] at h
          simp at h
          omega
        · rw [if_neg hce] at h
          cases hk : _parse_byte_string s p with
          | error e => simp only [hk] at h; simp [Bind.bind, Except.bind] at h
          | ok q =>
            obtain ⟨k, p₁⟩ := q
            simp only [hk] at h
            simp only [Bind.bind, Except.bind] at h
            cases he : runDecode s f .val p₁ with
            | error e => simp only [he] at h; simp at h
            | ok r =>
              obtain ⟨v₁, p₂⟩ := r
              simp only [he] at h
              have h0 := parse_byte_string_adv s p k p₁ hk
              have h1 := ih .val p₁ v₁ p₂ he
              have h2 := ih (.dictLoop (dictInsert acc k v₁)) p₂ v p' h
              omega

theorem runDecode_fuel_irrelevant (s : List Char) :
    ∀ fuel₁ fuel₂ task p, needT s task p ≤ fuel₁ → needT s task p ≤ fuel₂ →
    runDecode s fuel₁ task p = runDecode s fuel₂ task p := by
  intro fuel₁
  induction fuel₁ using Nat.strong_induction_on with
  | _ fuel₁ ih =>
    intro fuel₂ task p h₁ h₂
    have hpos : 1 ≤ needT s task p := by cases task <;> simp [needT]
    obtain ⟨f₁, rfl⟩ : ∃ f, fuel₁ = f + 1 := ⟨fuel₁ - 1, by omega⟩
    obtain ⟨f₂, rfl⟩ : ∃ f, fuel₂ = f + 1 := ⟨fuel₂ - 1, by omega⟩
    by_cases hp : s.length ≤ p
    · have hc : s[p]? = none := by
        rw [List.getElem?_eq_none_iff]
        exact hp
      cases task <;> (rw [runDecode, runDecode]; simp only [hc])
    · cases task with
      | val =>
        simp only [needT] at h₁ h₂
        rw [runDecode, runDecode]
        cases hc : s[p]? with
        | none => rfl
        | some c =>
          by_cases hci : c = 'i'
          · simp only [if_pos hci]
          · simp only [if_neg hci]
            by_cases hcl : c = 'l'
            · simp only [if_pos hcl]
              exact ih f₁ (by omega) f₂ (.listLoop []) (p + 1)
                (by simp only [needT]; omega) (by simp only [needT]; omega)
            · simp only [if_neg hcl]
              by_cases hcd : c = 'd'
              · simp only [if_pos hcd]
                exact ih f₁ (by omega) f₂ (.dictLoop []) (p + 1)
                  (by simp only [needT]; omega) (by simp only [needT]; omega)
              · simp only [if_neg hcd]
      | listLoop acc =>
        simp only [needT] at h₁ h₂
        rw [runDecode, runDecode]
        cases hc : s[p]? with
        | none => rfl
        | some c =>
          by_cases hce : c = 'e'
          · simp only [if_pos hce]
          · simp only [if_neg hce]
            have helem : runDecode s f₁ .val p = runDecode s f₂ .val p :=
              ih f₁ (by omega) f₂ .val p (by simp only [needT]; omega)
                (by simp only [needT]; omega)
            rw [helem]
            cases he : runDecode s f₂ .val p with
            | error e => simp [Bind.bind, Except.bind]
            | ok r =>
              obtain ⟨v₁, p₁⟩ := r
              have hadv : p < p₁ := runDecode_adv s f₂ .val p v₁ p₁ he
              simp only [Bind.bind, Except.bind]
              exact ih f₁ (by omega) f₂ (.listLoop (acc ++ [v₁])) p₁
                (by simp only [needT]; omega) (by simp only [needT]; omega)
      | dictLoop acc =>
        simp only [needT] at h₁ h₂
        rw [runDecode, runDecode]
        cases hc : s[p]? with
        | none => rfl
        | some c =>
          by_cases hce : c = 'e'
          · simp only [if_pos hce]
          · simp only [if_neg hce]
            cases hk : _parse_byte_string s p with
            | error e => simp [Bind.bind, Except.bind]
            | ok q =>
              obtain ⟨k, p₁⟩ := q
              have hadv₀ : p < p₁ := parse_byte_string_adv s p k p₁ hk
              simp only [Bind.bind, Except.bind]
              have helem : runDecode s f₁ .val p₁ = runDecode s f₂ .val p₁ :=
                ih f₁ (by omega) f₂ .val p₁ (by simp only [needT]; omega)
                  (by simp only [needT]; omega)
              rw [helem]
              cases he : runDecode s f₂ .val p₁ with
              | error e => rfl
              | ok r =>
                obtain ⟨v₁, p₂⟩ := r
                have hadv : p₁ < p₂ := runDecode_adv s f₂ .val p₁ v₁ p₂ he
                exact ih f₁ (by omega) f₂ (.dictLoop (dictInsert acc k v₁)) p₂
                  (by simp only [needT]; omega) (by simp only [needT]; omega)

/-!  Failure of the digit-accumulation step: `_get_number` on a digit
prefix followed by a byte that is neither a digit nor the terminator
raises the `int()` `ValueError`, and `decode` propagates it from the
first value's integer body or byte-string length field. -/

theorem get_number_bad (s : List Char) (endChar : Char) :
    ∀ ds : List Char, (∀ d ∈ ds, d.isDigit = true ∧ d ≠ endChar) →
    ∀ (c : Char) (rest : List Char) (num p fuel : Nat),
    s.drop p = ds ++ c :: rest → c.isDigit = false → c ≠ endChar →
    ds.length + 1 ≤ fuel →
    _get_number s endChar fuel num p = .error (.valueError (p + ds.length) c) := by
  intro ds
  induction ds with
  | nil =>
    intro _ c rest num p fuel hs hc hce hfuel
    match fuel, hfuel with
    | f + 1, _ =>
      have hpy : pyInt c = none := by
        rw [pyInt, if_neg (by rw [hc]; simp)]
      rw [_get_number]
      simp [getElem_of_drop hs, hce, hpy]
  | cons d ds' ih =>
    intro hds c rest num p fuel hs hc hce hfuel
    match fuel, hfuel with
    | f + 1, hfuel =>
      obtain ⟨hdig, hne⟩ := hds d (by simp)
      rw [_get_number]
      simp only [getElem_of_drop (show s.drop p = d :: (ds' ++ c :: rest) by
        simpa using hs), hne, pyInt_digit hdig, if_false, ite_false]
      rw [ih (fun x hx => hds x (by simp [hx])) c rest _ (p + 1) f
        (drop_cons (show s.drop p = d :: (ds' ++ c :: rest) by simpa using hs))
        hc hce (by simpa using hfuel)]
      simp
      omega

theorem decode_int_body_bad (ds rest : List Char) (c : Char)
    (hds : ∀ d ∈ ds, d.isDigit = true) (hc : c.isDigit = false) (hce : c ≠ 'e')
    (hcm : c ≠ '-') :
    decode ('i' :: (ds ++ c :: rest)) = .error (.valueError (1 + ds.length) c) := by
  have h1 : ('i' :: (ds ++ c :: rest)).drop 1 = ds ++ c :: rest := rfl
  have hhead : ∃ c₁, ('i' :: (ds ++ c :: rest))[1]? = some c₁ ∧ c₁ ≠ '-' := by
    cases ds with
    | nil => exact ⟨c, by simp, hcm⟩
    | cons d t => exact ⟨d, by simp, (digit_ne_special (hds d (by simp))).2.2.1⟩
  obtain ⟨c₁, h1c, h1m⟩ := hhead
  have hgn : _get_number ('i' :: (ds ++ c :: rest)) 'e'
      (('i' :: (ds ++ c :: rest)).length + 1) 0 1 =
      .error (.valueError (1 + ds.length) c) :=
    get_number_bad _ 'e' ds
      (fun d hd => ⟨hds d hd, (digit_ne_special (hds d hd)).2.1⟩)
      c rest 0 1 _ h1 hc hce (by simp; omega)
  rw [decode, show 2 * ('i' :: (ds ++ c :: rest)).length + 2 =
    (2 * ('i' :: (ds ++ c :: rest)).length + 1) + 1 from rfl, runDecode]
  have h0 : ('i' :: (ds ++ c :: rest))[0]? = some 'i' := by simp
  simp only [h0, if_pos rfl]
  rw [_parse_integer]
  simp only [h1c, if_neg h1m, hgn]
  simp

theorem decode_int_body_bad_neg (ds rest : List Char) (c : Char)
    (hds : ∀ d ∈ ds, d.isDigit = true) (hc : c.isDigit = false)
    (hce : c ≠ 'e') :
    decode ('i' :: '-' :: (ds ++ c :: rest)) =
      .error (.valueError (2 + ds.length) c) := by
  have h2 : ('i' :: '-' :: (ds ++ c :: rest)).drop 2 = ds ++ c :: rest := rfl
  have hgn : _get_number ('i' :: '-' :: (ds ++ c :: rest)) 'e'
      (('i' :: '-' :: (ds ++ c :: rest)).length + 1) 0 2 =
      .error (.valueError (2 + ds.length) c) :=
    get_number_bad _ 'e' ds
      (fun d hd => ⟨hds d hd, (digit_ne_special (hds d hd)).2.1⟩)
      c rest 0 2 _ h2 hc hce (by simp; omega)
  rw [decode, show 2 * ('i' :: '-' :: (ds ++ c :: rest)).length + 2 =
    (2 * ('i' :: '-' :: (ds ++ c :: rest)).length + 1) + 1 from rfl, runDecode]
  have h0 : ('i' :: '-' :: (ds ++ c :: rest))[0]? = some 'i' := by simp
  simp only [h0, if_pos rfl]
  rw [_parse_integer]
  have h1c : ('i' :: '-' :: (ds ++ c :: rest))[1]? = some '-' := by simp
  simp only [h1c, if_pos rfl, hgn]
  simp

theorem decode_length_field_bad (d₀ : Char) (ds rest : List Char) (c : Char)
    (hd0 : d₀.isDigit = true) (hds : ∀ d ∈ ds, d.isDigit = true)
    (hc : c.isDigit = false) (hcc : c ≠ ':') :
    decode ((d₀ :: ds) ++ c :: rest) = .error (.valueError (1 + ds.length) c) := by
  have hall : ∀ d ∈ d₀ :: ds, d.isDigit = true ∧ d ≠ ':' := by
    intro d hd
    rcases List.mem_cons.mp hd with h | h
    · exact ⟨h ▸ hd0, (digit_ne_special (h ▸ hd0)).1⟩
    · exact ⟨hds d h, (digit_ne_special (hds d h)).1⟩
  have hgn : _get_number ((d₀ :: ds) ++ c :: rest) ':'
      (((d₀ :: ds) ++ c :: rest).length + 1) 0 0 =
      .error (.valueError (0 + (d₀ :: ds).length) c) :=
    get_number_bad _ ':' (d₀ :: ds) hall c rest 0 0 _ (by rw [List.drop_zero])
      hc hcc (by simp)
  rw [decode, show 2 * ((d₀ :: ds) ++ c :: rest).length + 2 =
    (2 * ((d₀ :: ds) ++ c :: rest).length + 1) + 1 from rfl, runDecode]
  have h0 : ((d₀ :: ds) ++ c :: rest)[0]? = some d₀ := by simp
  simp only [h0, if_neg (digit_ne_special hd0).2.2.2.1,
    if_neg (digit_ne_special hd0).2.2.2.2.1,
    if_neg (digit_ne_special hd0).2.2.2.2.2,
    if_pos (digit_mem_dispatch hd0)]
  rw [_parse_byte_string]
  rw [hgn]
  simp [Bind.bind, Except.bind]
  omega

/-!  Claim theorems. -/

/-- C1: For every dictionary value, encode emits the keys in ascending
byte-wise lexicographic order regardless of the dictionary's insertion
order: the emitted key sequence is sorted under `keyLe`; two association
lists with the same (unique-keyed) bindings in any orders encode to the
same bytes; and `encode({"b":1,"a":2}) = encode({"a":2,"b":1}) =
"d1:ai2e1:bi1ee"`. -/
theorem dict_encode_key_order :
    (∀ d : List (List Char × BVal),
      ((List.insertionSort keyRel (d.map fun q => (q.1, encodeV q.2))).map
        Prod.fst).Pairwise (fun a b : List Char => keyLe a b = true))
    ∧ (∀ d₁ d₂ : List (List Char × BVal), d₁.Perm d₂ → (d₁.map Prod.fst).Nodup →
        encodeV (.dict d₁) = encodeV (.dict d₂))
    ∧ encodeV (.dict [(chars "b", .int 1), (chars "a", .int 2)]) =
        encodeV (.dict [(chars "a", .int 2), (chars "b", .int 1)])
    ∧ encodeV (.dict [(chars "b", .int 1), (chars "a", .int 2)]) =
        chars "d1:ai2e1:bi1ee" := by
  have hkeys : ∀ d : List (List Char × BVal),
      ((d.map fun q => (q.1, encodeV q.2)).map Prod.fst) = d.map Prod.fst := by
    intro d
    rw [List.map_map]
    rfl
  have hgen : ∀ d₁ d₂ : List (List Char × BVal), d₁.Perm d₂ →
      (d₁.map Prod.fst).Nodup → encodeV (.dict d₁) = encodeV (.dict d₂) := by
    intro d₁ d₂ hperm hnodup
    rw [encodeV_dict, encodeV_dict]
    have hpermm : (d₁.map fun q => (q.1, encodeV q.2)).Perm
        (d₂.map fun q => (q.1, encodeV q.2)) := hperm.map _
    have hps : (List.insertionSort keyRel (d₁.map fun q => (q.1, encodeV q.2))).Perm
        (List.insertionSort keyRel (d₂.map fun q => (q.1, encodeV q.2))) :=
      (List.perm_insertionSort _ _).trans
        (hpermm.trans (List.perm_insertionSort _ _).symm)
    have hnodup₁ : ((List.insertionSort keyRel
        (d₁.map fun q => (q.1, encodeV q.2))).map Prod.fst).Nodup := by
      refine (List.Perm.nodup_iff ?_).mpr (hkeys d₁ ▸ hnodup)
      exact (List.perm_insertionSort _ _).map _
    have hnodup₂ : ((List.insertionSort keyRel
        (d₂.map fun q => (q.1, encodeV q.2))).map Prod.fst).Nodup := by
      refine (List.Perm.nodup_iff ?_).mpr
        (hkeys d₂ ▸ ((hperm.map Prod.fst).nodup_iff.mp hnodup))
      exact (List.perm_insertionSort _ _).map _
    have hstrict : ∀ l : List (List Char × List Char), List.Sorted keyRel l →
        (l.map Prod.fst).Nodup → l.Pairwise keyRelS := by
      intro l hsorted hnd
      have hne : l.Pairwise (fun a b => a.1 ≠ b.1) := List.pairwise_map.mp hnd
      exact (List.Pairwise.and hsorted hne).imp (fun h => ⟨h.1, h.2⟩)
    have heq := List.eq_of_perm_of_sorted (r := keyRelS) hps
      (hstrict _ (List.sorted_insertionSort keyRel _) hnodup₁)
      (hstrict _ (List.sorted_insertionSort keyRel _) hnodup₂)
    rw [heq]
  refine ⟨?_, hgen, hgen _ _ (List.Perm.swap _ _ _) (by decide), ?_⟩
  · intro d
    have hsorted := List.sorted_insertionSort keyRel
      (d.map fun q => (q.1, encodeV q.2))
    rw [List.pairwise_map]
    exact hsorted.imp (fun h => h)
  · rw [encodeV_dict]
    simp only [List.map_cons, List.map_nil, encodeV_int, List.insertionSort,
      List.orderedInsert]
    rfl

/-- Witness for C1 (general part applied at a concrete permutation pair). -/
theorem dict_encode_key_order_witness :
    encodeV (.dict [(chars "b", .int 1), (chars "a", .int 2)]) =
      encodeV (.dict [(chars "a", .int 2), (chars "b", .int 1)]) :=
  dict_encode_key_order.2.1 _ _ (List.Perm.swap _ _ _) (by decide)

/-- C2: for every BencodeValue in canonical form (dictionary keys
strictly sorted byte-wise, hence unique; integers have no negative zero
since `Int` has none), `decode (encode v) = v`. -/
theorem decode_encode_roundtrip (v : BVal) (h : isCanonical v = true) :
    decode (encodeV v) = .ok (some v) := by
  have hd := decode_encode_trailing v (canonical_nodup v h) []
  rw [List.append_nil] at hd
  rw [hd, canon_eq_self v h]

/-- Witness for C2 at a two-key dictionary in canonical form. -/
theorem decode_encode_roundtrip_witness :
    isCanonical (.dict [(chars "a", .int 2), (chars "b", .int 1)]) = true
    ∧ decode (encodeV (.dict [(chars "a", .int 2), (chars "b", .int 1)])) =
      .ok (some (.dict [(chars "a", .int 2), (chars "b", .int 1)])) :=
  ⟨by simp [isCanonical_dict, isCanonical]; decide,
   decode_encode_roundtrip _ (by simp [isCanonical_dict, isCanonical]; decide)⟩

/-- C3: for every encodable value tree (any nesting of the four variants
with unique dictionary keys), `encode (decode (encode v)) = encode v`;
equivalently, every byte string of the form `encode v` — which is exactly
a byte string in canonical form — satisfies `encode (decode b) = b`. -/
theorem encode_decode_encode (v : BVal) (h : nodupKeysV v = true) :
    encodeAfterDecode (decode (encodeV v)) = some (encodeV v) := by
  have hd := decode_encode_trailing v h []
  rw [List.append_nil] at hd
  rw [hd, encodeAfterDecode]
  rw [encode_canon]

/-- Witness for C3 at a dictionary with unsorted keys (so that decode
actually re-sorts and re-encoding restores the same canonical bytes). -/
theorem encode_decode_encode_witness :
    nodupKeysV (.dict [(chars "b", .int 1), (chars "a", .int 2)]) = true
    ∧ encodeAfterDecode (decode (encodeV
        (.dict [(chars "b", .int 1), (chars "a", .int 2)]))) =
      some (encodeV (.dict [(chars "b", .int 1), (chars "a", .int 2)])) :=
  ⟨by simp [nodupKeysV_dict, nodupKeysV]; decide,
   encode_decode_encode _ (by simp [nodupKeysV_dict, nodupKeysV]; decide)⟩

/-- Counterexample to C4: a byte string whose declared length exceeds the
remaining bytes does not fail — `decode "5:abc"` returns the silently
truncated payload `"abc"` because Python slicing truncates at the end of
the buffer. -/
theorem truncated_byte_string_returns_value :
    decode (chars "5:abc") = .ok (some (.str (chars "abc"))) := rfl

/-- C4 (amended): there is no `TruncatedInput` error.  A byte-string body
running past the end of the buffer is silently truncated
(`decode "5:abc" = "abc"`), and any out-of-range read during parsing
raises `IndexError`, which `decode` catches; it prints the pointer and
buffer length and returns `None` (no value and no error to the caller). -/
theorem truncation_behavior :
    decode (chars "5:abc") = .ok (some (.str (chars "abc")))
    ∧ (∀ (s : List Char) (p : Nat),
        runDecode s (2 * s.length + 2) .val 0 = .error (.indexError p) →
        decode s = .ok none) := by
  refine ⟨rfl, ?_⟩
  intro s p h
  rw [decode, h]

/-- Witness for C4 (amended) at the truncated integer `"i1"`. -/
theorem truncation_behavior_witness : decode (chars "i1") = .ok none :=
  truncation_behavior.2 (chars "i1") 2 rfl

/-- C5: when the first dispatched byte is not `'i'`, `'l'`, `'d'`, `'-'`
or an ASCII digit, decode raises the invalid-character exception (the
spec's `MalformedInput`) reporting offset 0 and the byte, and the
exception propagates to the caller; in particular `decode "x"` fails that
way. -/
theorem malformed_dispatch :
    (∀ (s : List Char) (c : Char), s[0]? = some c →
      c ∉ ['i', 'l', 'd', '-', '0', '1', '2', '3', '4', '5', '6', '7', '8', '9'] →
      decode s = .error (.malformedInput 0 c))
    ∧ decode (chars "x") = .error (.malformedInput 0 'x') := by
  refine ⟨?_, rfl⟩
  intro s c h0 h
  simp only [List.mem_cons, List.not_mem_nil, or_false, not_or] at h
  obtain ⟨hi, hl, hd, hdash, h0', h1, h2, h3, h4, h5, h6, h7, h8, h9⟩ := h
  have hmem : c ∉ ['-', '0', '1', '2', '3', '4', '5', '6', '7', '8', '9'] := by
    simp only [List.mem_cons, List.not_mem_nil, or_false, not_or]
    exact ⟨hdash, h0', h1, h2, h3, h4, h5, h6, h7, h8, h9⟩
  rw [decode, show 2 * s.length + 2 = (2 * s.length + 1) + 1 from rfl, runDecode]
  simp only [h0, if_neg hi, if_neg hl, if_neg hd, if_neg hmem]

/-- Witness for C5 at `decode "x"`. -/
theorem malformed_dispatch_witness :
    decode (chars "x") = .error (.malformedInput 0 'x') :=
  malformed_dispatch.1 (chars "x") 'x' rfl (by decide)

/-- Counterexample to C6: a buffer with trailing bytes after the first
complete value still decodes successfully to that first value. -/
theorem trailing_bytes_decode : decode (chars "i1ex") = .ok (some (.int 1)) := rfl

/-- C6 (amended): `decode` parses one value rooted at the first byte and
ignores any bytes after it: for canonical `v` and arbitrary trailing
bytes `t`, `decode (encode v ++ t)` succeeds with exactly `v`. -/
theorem decode_ignores_trailing (v : BVal) (h : isCanonical v = true)
    (t : List Char) : decode (encodeV v ++ t) = .ok (some v) := by
  rw [decode_encode_trailing v (canonical_nodup v h) t, canon_eq_self v h]

/-- Witness for C6 (amended): `decode "i1ex"` through the general
theorem. -/
theorem decode_ignores_trailing_witness :
    isCanonical (.int 1) = true
    ∧ decode (encodeV (.int 1) ++ chars "x") = .ok (some (.int 1)) :=
  ⟨by simp [isCanonical], decode_ignores_trailing _ (by simp [isCanonical]) _⟩

/-- C7: the decoder accepts non-canonical dictionary encodings: a
well-formed dictionary input with keys in any order, possibly repeated,
decodes successfully to the mapping built by repeated assignment, and a
repeated key maps to the value of its last occurrence (last write wins,
stated via first-match lookup on the reversed pair sequence). -/
theorem decode_noncanonical_dict (pairs : List (List Char × BVal))
    (h : ∀ q ∈ pairs, isCanonical q.2 = true) :
    decode (dictEnc pairs) = .ok (some (.dict (buildD pairs)))
    ∧ ∀ k, lookupKV (buildD pairs) k = lookupKV pairs.reverse k := by
  refine ⟨?_, fun k => buildD_lastwins pairs k⟩
  have hlen : (dictEnc pairs).length =
      (pairs.map fun q => _encode_string q.1 ++ encodeV q.2).flatten.length + 2 := by
    rw [dictEnc]
    simp
  have hfuel : foldNeed (pairs.map fun q => needV q.2) ≤
      2 * (dictEnc pairs).length + 1 := by
    have := foldNeed_le_dict pairs (fun q _ => need_le_len q.2)
    omega
  have hdrop : (dictEnc pairs).drop 1 =
      (pairs.map fun q => _encode_string q.1 ++ encodeV q.2).flatten ++ 'e' :: [] := by
    rw [dictEnc]
    simp
  have hrun := runDict_spec (dictEnc pairs) pairs
    (fun q hq p rest fuel h1 h2 =>
      run_val_spec q.2 (canonical_nodup q.2 (h q hq)) (dictEnc pairs) p rest fuel h1 h2)
    [] 1 (2 * (dictEnc pairs).length + 1) [] hdrop hfuel
  have hfold : pairs.foldl (fun a q => dictInsert a q.1 (canon q.2)) [] =
      buildD pairs := by
    rw [buildD]
    exact List.foldl_ext _ _ [] (fun a q hq => by rw [canon_eq_self q.2 (h q hq)])
  rw [decode]
  rw [show 2 * (dictEnc pairs).length + 2 = (2 * (dictEnc pairs).length + 1) + 1
    from rfl]
  rw [runDecode]
  have h0 : (dictEnc pairs)[0]? = some 'd' := by rw [dictEnc]; simp
  simp only [h0, if_neg (by decide : ¬ ('d' : Char) = 'i'),
    if_neg (by decide : ¬ ('d' : Char) = 'l'), if_pos rfl]
  rw [hrun, hfold]
  simp

/-- Witness for C7 at a dictionary encoding with unsorted and duplicated
keys: `d1:bi1e1:ai2e1:bi3ee` decodes with the second binding of `"b"`
winning. -/
theorem decode_noncanonical_dict_witness :
    decode (dictEnc [(chars "b", .int 1), (chars "a", .int 2), (chars "b", .int 3)]) =
      .ok (some (.dict (buildD
        [(chars "b", .int 1), (chars "a", .int 2), (chars "b", .int 3)])))
    ∧ lookupKV (buildD
        [(chars "b", .int 1), (chars "a", .int 2), (chars "b", .int 3)]) (chars "b") =
      lookupKV [(chars "b", .int 3), (chars "a", .int 2), (chars "b", .int 1)]
        (chars "b") :=
  ⟨(decode_noncanonical_dict _ (by intro q hq; fin_cases hq <;> simp [isCanonical])).1,
   (decode_noncanonical_dict _ (by intro q hq; fin_cases hq <;> simp [isCanonical])).2
     (chars "b")⟩

/-- C8: `_encode_integer n` emits `'i'`, then a single leading `'-'`
exactly when `n` is negative, then the decimal digits of `|n|` (all
digit bytes, reading back to `|n|`), then `'e'`; zero encodes as `"i0e"`
(never `"i-0e"`, since `Int` has no negative zero and the sign test is
`n < 0`), and `encode (-1234) = "i-1234e"`. -/
theorem encode_integer_format :
    (∀ n : Int, _encode_integer n =
      'i' :: ((if n < 0 then ['-'] else []) ++ decimalRepr n.natAbs) ++ ['e'])
    ∧ (∀ n : Int, (decimalRepr n.natAbs).all Char.isDigit = true)
    ∧ (∀ m : Nat, digitsVal 0 (decimalRepr m) = m)
    ∧ _encode_integer 0 = chars "i0e"
    ∧ _encode_integer (-1234) = chars "i-1234e" := by
  refine ⟨?_, ?_, digitsVal_decimalRepr, by rfl, by rfl⟩
  · intro n
    rw [_encode_integer]
    by_cases hn : n < 0 <;> simp [hn]
  · intro n
    rw [List.all_eq_true]
    intro c hc
    exact decimalRepr_digits n.natAbs c hc

/-- C9: both operations are deterministic and independent across calls:
the encoder ignores all instance state, and `decode` overwrites
`_ben_string` and `_pointer` before parsing, so the result of either call
depends only on its argument — not on the instance used nor on any
earlier `encode`/`decode` calls performed on it. -/
theorem codec_deterministic_stateless :
    (∀ (b₁ b₂ : Bencode) (ops₁ ops₂ : List BCall) (v : BVal),
      ((runCalls b₁ ops₁).encodeCall v).1 = ((runCalls b₂ ops₂).encodeCall v).1)
    ∧ (∀ (b₁ b₂ : Bencode) (ops₁ ops₂ : List BCall) (s : List Char),
      ((runCalls b₁ ops₁).decodeCall s).1 = ((runCalls b₂ ops₂).decodeCall s).1)
    ∧ (∀ (b : Bencode) (s : List Char), (b.decodeCall s).1 = decode s)
    ∧ (∀ (b : Bencode) (v : BVal), (b.encodeCall v).1 = encodeV v) := by
  have hdec : ∀ (b : Bencode) (s : List Char), (b.decodeCall s).1 = decode s := by
    intro b s
    rw [Bencode.decodeCall, decode]
    cases h : runDecode s (2 * s.length + 2) .val 0 with
    | ok r => simp [h]
    | error e => cases e <;> simp [h]
  refine ⟨fun _ _ _ _ _ => rfl, ?_, hdec, fun _ _ => rfl⟩
  intro b₁ b₂ ops₁ ops₂ s
  rw [hdec, hdec]

/-- C10: a non-digit, non-terminator byte inside the digit-accumulation
loop of `_get_number` (used both for integer bodies and byte-string
length fields) makes `int()` raise `ValueError`, and decoding then fails
with that error rather than returning a value: for every input whose
first value is an integer body or a byte-string length field containing
such a byte, `decode` returns `.error (.valueError p c)` at the byte's
offset — never `.ok` — because `decode` catches only `IndexError` and
propagates every `ValueError` it meets (conjunct 6, plus the uncaught
nested case `decode "lllliae"`). The error is neither the
invalid-character (`MalformedInput`) exception nor an `IndexError` (and
`DErr` has no `TruncatedInput`/`NumericOverflow` at all); a `'-'`
dispatch byte reaches `_get_number(':')` at the `'-'` itself, so any
input starting with `'-'` fails this way. -/
theorem digit_accumulation_value_error :
    (∀ (s : List Char) (endChar c : Char) (fuel num p : Nat),
      s[p]? = some c → c ≠ endChar → pyInt c = none →
      _get_number s endChar (fuel + 1) num p = .error (.valueError p c))
    ∧ (∀ (ds rest : List Char) (c : Char), (∀ d ∈ ds, d.isDigit = true) →
        c.isDigit = false → c ≠ 'e' → c ≠ '-' →
        decode ('i' :: (ds ++ c :: rest)) = .error (.valueError (1 + ds.length) c))
    ∧ (∀ (ds rest : List Char) (c : Char), (∀ d ∈ ds, d.isDigit = true) →
        c.isDigit = false → c ≠ 'e' →
        decode ('i' :: '-' :: (ds ++ c :: rest)) =
          .error (.valueError (2 + ds.length) c))
    ∧ (∀ (d₀ : Char) (ds rest : List Char) (c : Char), d₀.isDigit = true →
        (∀ d ∈ ds, d.isDigit = true) → c.isDigit = false → c ≠ ':' →
        decode ((d₀ :: ds) ++ c :: rest) = .error (.valueError (1 + ds.length) c))
    ∧ (∀ s : List Char, s[0]? = some '-' → decode s = .error (.valueError 0 '-'))
    ∧ (∀ (s : List Char) (p : Nat) (c : Char),
        runDecode s (2 * s.length + 2) .val 0 = .error (.valueError p c) →
        decode s = .error (.valueError p c))
    ∧ decode (chars "iae") = .error (.valueError 1 'a')
    ∧ decode (chars "lllliae") = .error (.valueError 5 'a')
    ∧ (∀ (p : Nat) (c : Char) (p' : Nat) (c' : Char),
        DErr.valueError p c ≠ DErr.malformedInput p' c')
    ∧ (∀ (p : Nat) (c : Char) (p' : Nat),
        DErr.valueError p c ≠ DErr.indexError p') := by
  refine ⟨?_, decode_int_body_bad, decode_int_body_bad_neg,
    decode_length_field_bad, ?_, ?_, by rfl, by rfl,
    by intro p c p' c'; simp, by intro p c p'; simp⟩
  · intro s endChar c fuel num p h0 hne hpy
    rw [_get_number]
    simp [h0, hne, hpy]
  · intro s h0
    obtain ⟨t, rfl⟩ : ∃ t, s = '-' :: t := by
      cases s with
      | nil => simp at h0
      | cons c t =>
        have hc : c = '-' := by simpa using h0
        exact ⟨t, by rw [hc]⟩
    rw [decode, show 2 * ('-' :: t : List Char).length + 2 =
      (2 * ('-' :: t : List Char).length + 1) + 1 from rfl, runDecode]
    simp only [h0, if_neg (by decide : ¬ ('-' : Char) = 'i'),
      if_neg (by decide : ¬ ('-' : Char) = 'l'),
      if_neg (by decide : ¬ ('-' : Char) = 'd'),
      if_pos (by decide :
        ('-' : Char) ∈ ['-', '0', '1', '2', '3', '4', '5', '6', '7', '8', '9'])]
    rw [_parse_byte_string]
    rw [show ('-' :: t : List Char).length + 1 = (t.length + 1) + 1 by simp]
    rw [_get_number]
    simp [h0, pyInt, Bind.bind, Except.bind]
  · intro s p c h
    rw [decode, h]

/-- Witness for C10: the digit-accumulation `ValueError` observed through
`decode` at concrete inputs — an unsigned integer body (`"i1x"`), a
signed integer body (`"i-1x"`), a byte-string length field (`"12x:ab"`),
a `'-'` dispatch byte (`"-a"`), propagation from the parser run
(`"iae"`), and the raw `_get_number` failure. -/
theorem digit_accumulation_value_error_witness :
    _get_number (chars "a") ':' 1 0 0 = .error (.valueError 0 'a')
    ∧ decode (chars "i1x") = .error (.valueError 2 'x')
    ∧ decode (chars "i-1x") = .error (.valueError 3 'x')
    ∧ decode (chars "12x:ab") = .error (.valueError 2 'x')
    ∧ decode (chars "-a") = .error (.valueError 0 '-')
    ∧ decode (chars "iae") = .error (.valueError 1 'a') :=
  ⟨digit_accumulation_value_error.1 (chars "a") ':' 'a' 0 0 0 rfl (by decide)
    (by decide),
   digit_accumulation_value_error.2.1 ['1'] [] 'x' (by decide) (by decide)
    (by decide) (by decide),
   digit_accumulation_value_error.2.2.1 ['1'] [] 'x' (by decide) (by decide)
    (by decide),
   digit_accumulation_value_error.2.2.2.1 '1' ['2'] (chars ":ab") 'x'
    (by decide) (by decide) (by decide) (by decide),
   digit_accumulation_value_error.2.2.2.2.1 (chars "-a") rfl,
   digit_accumulation_value_error.2.2.2.2.2.1 (chars "iae") 1 'a' rfl⟩
